import Mathlib

/-!
# Verification of the shiba-jit middle-end against its specification

Shallow embedding of the repository's IR data model (`src/ir.rs`), the CFG
analysis and liveness queries (`src/reg_alloc.rs`) and the register
allocation / immediate-folding parts of the x86-64 code generator
(`src/codegen/x86_64.rs`).

Conventions used throughout:
* Rust `usize` values are modelled as `Nat`; wrap-around of machine
  arithmetic is made explicit with `% 2^64` where the source relies on it.
* Rust panics (`unwrap`, `expect`, `assert!`, indexing a missing map key)
  are modelled by `Option`: `none` is a panic, `some x` a normal return.
* `BTreeMap`/`BTreeSet` values are modelled as association lists kept
  sorted by key (matching the ordered iteration of the Rust type) or as
  plain lists where only membership is observed.
* The third-party `petgraph` structures are modelled denotationally:
  a graph is a node count `n` together with an adjacency function
  `Nat → List Nat` (the list order models `petgraph`'s neighbor
  iteration order, which is the reverse of edge-insertion order).
-/

namespace ShibaJit

/-- `PrimitiveValue` from `src/ir.rs`: the eight primitive widths. -/
inductive PrimitiveValue where
  | U8 | I8 | U16 | I16 | U32 | I32 | U64 | I64
deriving DecidableEq, Repr

/-- Bit width governed by a `PrimitiveValue` (spec §3: width governs
operand size; signedness is irrelevant for emission). -/
def PrimitiveValue.width : PrimitiveValue → Nat
  | .U8 => 8
  | .I8 => 8
  | .U16 => 16
  | .I16 => 16
  | .U32 => 32
  | .I32 => 32
  | .U64 => 64
  | .I64 => 64

/-- `Value` from `src/ir.rs`: a virtual register index or an immediate
`(width, payload)` pair.  The payload is a Rust `usize`. -/
inductive Value where
  | Register (idx : Nat)
  | Immediate (ty : PrimitiveValue) (value : Nat)
deriving DecidableEq, Repr

/-- The `IR` instruction enum from `src/ir.rs` (exactly its variants;
the enum has no `Return` variant even though the emitter matches one). -/
inductive IR where
  | Alloca (dest : Nat) (ty : PrimitiveValue) (alignment : Nat)
  | Add (dest : Nat) (src1 src2 : Value)
  | Subtract (dest : Nat) (src1 src2 : Value)
  | Multiply (dest : Nat) (src1 src2 : Value)
  | Divide (dest : Nat) (src1 src2 : Value)
  | Load (dest : Value) (src : Value)
  | Store (dest : Value) (src : Value)
  | JumpIfEqual (src : Value) (trueBb falseBb : Nat)
  | JumpIfNotEqual (src : Value) (trueBb falseBb : Nat)
  | Jump (bbIdx : Nat)
  | PrintConstant (constantRef : Nat)
deriving DecidableEq, Repr

/-- One basic block (`BasicBlock` in `src/ir.rs`): predecessor indices,
successor indices and straight-line code.  The `manager_chan` endpoint is
modelled by the pending-message list of the owning manager. -/
structure BasicBlock where
  parents : List Nat
  exits : List Nat
  code : List IR
deriving DecidableEq, Repr

/-- `BasicBlockManager` from `src/ir.rs`: the block arena plus the queue
of pending `BasicBlockMessage::Jump(src, target)` notices (the mpsc
channel, drained in FIFO order).  `start` is always block 0. -/
structure BasicBlockManager where
  blocks : List BasicBlock
  msgs : List (Nat × Nat)
deriving DecidableEq, Repr

/-- `Context` from `src/ir.rs`: the constants table and the block manager.
Constant byte-strings are modelled as lists of byte values. -/
structure Context where
  constants : List (List Nat)
  basicBlocks : BasicBlockManager
deriving DecidableEq, Repr

/-- `Context::new`. -/
def Context.new : Context :=
  { constants := [], basicBlocks := { blocks := [], msgs := [] } }

/-- `Context::add_constant`: pushes the bytes and returns
`ConstantIndex(len - 1)`, i.e. the index of the slot just filled. -/
def add_constant (ctx : Context) (c : List Nat) : Context × Nat :=
  ({ ctx with constants := ctx.constants ++ [c] }, ctx.constants.length)

/-- `Context::get_constant`: `self.constants.get(ci)`. -/
def get_constant (ctx : Context) (ci : Nat) : Option (List Nat) :=
  ctx.constants.get? ci

/-- Register all constants of a list in order, starting from a context. -/
def registerAll (ctx : Context) : List (List Nat) → Context
  | [] => ctx
  | c :: cs => registerAll (add_constant ctx c).1 cs

/-- The sequence of indices handed back by registering `cs` in order. -/
def registrationIndices (ctx : Context) : List (List Nat) → List Nat
  | [] => []
  | c :: cs => (add_constant ctx c).2 :: registrationIndices (add_constant ctx c).1 cs

/-! ## Immediate moves and constant folding (`src/codegen/x86_64.rs`) -/

/-- Value left in the 64-bit destination machine register by the
instruction sequence that `emit_mov_imm` emits (`src/codegen/x86_64.rs`,
lines 150–184).  For widths below 32 bits the register is zeroed by the
leading `xor` and the truncated immediate is moved in; the 32-bit arm
emits `mov r64, imm32`, which sign-extends the truncated immediate; the
64-bit arm moves the full immediate. -/
def emit_mov_imm_result (imm : Nat) : PrimitiveValue → Nat
  | .U8 | .I8 => imm % 2 ^ 8
  | .U16 | .I16 => imm % 2 ^ 16
  | .U32 | .I32 =>
      if imm % 2 ^ 32 < 2 ^ 31 then imm % 2 ^ 32
      else 2 ^ 64 - 2 ^ 32 + imm % 2 ^ 32
  | .U64 | .I64 => imm % 2 ^ 64

/-- Rust `usize` addition, two's-complement (release-mode wrapping)
semantics. -/
def usizeAdd (a b : Nat) : Nat := (a + b) % 2 ^ 64

/-- Rust `usize` subtraction, two's-complement (release-mode wrapping)
semantics. -/
def usizeSub (a b : Nat) : Nat := (a % 2 ^ 64 + 2 ^ 64 - b % 2 ^ 64) % 2 ^ 64

/-- Register value produced by the `Add` immediate–immediate arm of
`generate_code` (`src/codegen/x86_64.rs`, lines 338–344):
`emit_mov_imm(ops, mdest, v1 + v2, _type)` where `_type` is the first
immediate's width. -/
def generate_add_imm_imm (ty : PrimitiveValue) (v1 v2 : Nat) : Nat :=
  emit_mov_imm_result (usizeAdd v1 v2) ty

/-- Register value produced by the `Subtract` immediate–immediate arm of
`generate_code` (`src/codegen/x86_64.rs`, lines 379–384):
`emit_mov_imm(ops, mdest, v1 - v2, _type)`. -/
def generate_sub_imm_imm (ty : PrimitiveValue) (v1 v2 : Nat) : Nat :=
  emit_mov_imm_result (usizeSub v1 v2) ty

/-- Modelled from the spec: the constant fold of `v1 + v2` at width `w`
(two's-complement, spec §3 and §8 "Folding" law). -/
def spec_fold_add (w v1 v2 : Nat) : Nat := (v1 + v2) % 2 ^ w

/-- Modelled from the spec: the constant fold of `v1 - v2` at width `w`
(two's-complement, spec §3 and §8 "Folding" law). -/
def spec_fold_sub (w v1 v2 : Nat) : Nat := (v1 % 2 ^ w + 2 ^ w - v2 % 2 ^ w) % 2 ^ w

/-! ## The CFG graph and the reduced graph (`src/reg_alloc.rs`)

`compute_graph` builds a `petgraph::StableGraph` with one node per basic
block, added in block order, so `NodeIndex i` corresponds to
`BasicBlockIndex i` and the graph is a node count together with the edge
list. -/

/-- Insert a value into a list unless already present (models inserting
into a `BTreeSet`/deduplicating with `update_edge`; only membership and
emptiness of such sets are ever observed). -/
def insertAbsent (v : Nat) (l : List Nat) : List Nat :=
  if v ∈ l then l else l ++ [v]

/-- Insert an edge unless already present (models `update_edge`). -/
def insertEdgeAbsent (e : Nat × Nat) (l : List (Nat × Nat)) : List (Nat × Nat) :=
  if e ∈ l then l else l ++ [e]

/-- State of the breadth-first loop of `compute_reduced_graph_and_depth_map`
(`src/reg_alloc.rs`, lines 205–226): the `seen` depth map, the work queue
of `(node, generation)` pairs, and the list of edges removed so far from
the reduced graph. -/
structure BfsState where
  seen : List (Nat × Nat)
  queue : List (Nat × Nat)
  removed : List (Nat × Nat)
deriving DecidableEq, Repr

/-- One neighbor step of the loop body: if the neighbor is already seen
and its recorded depth is strictly below the traversing generation the
edge is removed; otherwise an unseen neighbor is recorded with depth
`generation` (note: not `generation + 1`) and queued with generation
`generation + 1`. -/
def bfsVisitNeighbor (node generation : Nat) (st : BfsState) (neigh : Nat) : BfsState :=
  match st.seen.lookup neigh with
  | some d =>
      if d < generation then { st with removed := st.removed ++ [(node, neigh)] } else st
  | none =>
      { st with
        seen := st.seen ++ [(neigh, generation)]
        queue := st.queue ++ [(neigh, generation + 1)] }

/-- Process every neighbor of the popped node, in neighbor-iteration
order. -/
def bfsProcessNode (adj : Nat → List Nat) (node generation : Nat) (st : BfsState) : BfsState :=
  (adj node).foldl (bfsVisitNeighbor node generation) st

/-- The `while let Some((node, generation)) = stack.pop_front()` loop.
`fuel` is an upper bound on the number of iterations; `bfsFuelSuffices`
below shows the fuel used by `compute_reduced_graph_and_depth_map`
exhausts the queue. -/
def bfsLoop (adj : Nat → List Nat) : Nat → BfsState → BfsState
  | 0, st => st
  | fuel + 1, st =>
      match st.queue with
      | [] => st
      | (node, generation) :: rest =>
          bfsLoop adj fuel (bfsProcessNode adj node generation { st with queue := rest })

/-- `compute_reduced_graph_and_depth_map` (`src/reg_alloc.rs`, lines
198–227) on a graph with `n` nodes and adjacency `adj`, started at
`start`: returns the final BFS state, whose `seen` component is the depth
map and whose `removed` component lists the edges deleted from the clone
that becomes the reduced graph. -/
def compute_reduced_graph_and_depth_map (adj : Nat → List Nat) (n start : Nat) : BfsState :=
  bfsLoop adj (n + 1)
    { seen := [(start, 0)], queue := [(start, 0)], removed := [] }

/-- Edge list of the graph `(n, adj)`. -/
def graphEdges (adj : Nat → List Nat) (n : Nat) : List (Nat × Nat) :=
  (List.range n).flatMap fun u => (adj u).map fun v => (u, v)

/-- Adjacency of the reduced graph: the original adjacency minus the
removed back-edge candidates. -/
def reducedAdj (adj : Nat → List Nat) (removed : List (Nat × Nat)) (u : Nat) : List Nat :=
  (adj u).filter fun v => (u, v) ∉ removed

/-- Saturation-style reachable set from `x` (at least `n` expansion
rounds): the denotation of the node set a `petgraph` DFS discovers.
Used to model `depth_first_search`'s `Discover` events and, through
`reach`-avoiding queries, the `simple_fast` dominator computation. -/
def reachStep (adj : Nat → List Nat) (acc : List Nat) : List Nat :=
  (acc ++ acc.flatMap adj).dedup

/-- Iterated expansion. -/
def reachIter (adj : Nat → List Nat) : Nat → List Nat → List Nat
  | 0, acc => acc
  | f + 1, acc => reachIter adj f (reachStep adj acc)

/-- Nodes reachable from `x` (including `x`). -/
def reachList (adj : Nat → List Nat) (n x : Nat) : List Nat :=
  reachIter adj (n + 1) [x]

/-- `GraphData::compute_reduced_reachability_and_back_edges`
(`src/reg_alloc.rs`, lines 125–158), for one DFS start node `x`.  The DFS
runs over the reduced graph; every edge out of a discovered node fires a
`TreeEdge`/`BackEdge`/`CrossForwardEdge` event, and the target is
collected exactly when `depth_map[&s] > depth_map[&d]`.  Depth-map
lookups panic (`none`) for nodes missing from the map. -/
def computeBackEdgeTargets (adj : Nat → List Nat) (n start x : Nat) : Option (List Nat) :=
  let st := compute_reduced_graph_and_depth_map adj n start
  let radj := reducedAdj adj st.removed
  let discovered := reachList radj n x
  let events := (graphEdges radj n).filter fun e => e.1 ∈ discovered
  events.foldlM
    (fun acc e => do
      let ds ← st.seen.lookup e.1
      let dd ← st.seen.lookup e.2
      pure (if ds > dd then insertAbsent e.2 acc else acc))
    []

/-- The reduced-reachability set for one node (the `Discover` events of
the same DFS). -/
def computeReducedReach (adj : Nat → List Nat) (n start x : Nat) : List Nat :=
  let st := compute_reduced_graph_and_depth_map adj n start
  reachList (reducedAdj adj st.removed) n x

/-- Modelled denotationally from the external `petgraph`
`algo::dominators::simple_fast`: node `d` strictly dominates `v` iff
`d ≠ v` and every path from the root to `v` passes through `d`,
equivalently `v` is not reachable from the root when `d` is excluded.
`strict_dominators(v)` is `Some` exactly for nodes reachable from the
root. -/
def reachAvoiding (adj : Nat → List Nat) (n root avoid : Nat) : List Nat :=
  if root = avoid then []
  else reachIter (fun u => (adj u).filter (· ≠ avoid)) (n + 1) [root]

/-- `Dominators::strict_dominators` denotation. -/
def strictDominators (adj : Nat → List Nat) (n root v : Nat) : Option (List Nat) :=
  if v ∈ reachList adj n root then
    some ((List.range n).filter fun d => d ≠ v ∧ v ∉ reachAvoiding adj n root d)
  else none

/-! ## Use/def maps and `GraphQuery` (`src/reg_alloc.rs`) -/

/-- Register operands read out of a `Value`. -/
def valueRegs : Value → List Nat
  | .Register r => [r]
  | .Immediate _ _ => []

/-- Modelled from the spec: `BasicBlock::iter_defined_registers` is called
from `GraphQuery::new` and `build_register_map_inner` but its definition
is not under `src/`.  Spec §4.3: `def(r)` is the single block that
defines `r`; §3/§4.1: each `Alloca`/arithmetic/`Load` helper defines a
fresh destination register, while `Store`, jumps and prints define
nothing. -/
def irDefinedRegs : IR → List Nat
  | .Alloca dest _ _ => [dest]
  | .Add dest _ _ => [dest]
  | .Subtract dest _ _ => [dest]
  | .Multiply dest _ _ => [dest]
  | .Divide dest _ _ => [dest]
  | .Load dest _ => valueRegs dest
  | _ => []

/-- Modelled from the spec: `BasicBlock::iter_used_registers` is called
from `GraphQuery::new` but its definition is not under `src/`.  Spec
§4.3: `uses(r)` is the set of blocks that read `r`; arithmetic reads its
two sources, `Load` reads the pointer, `Store` reads both the pointer and
the stored value, conditional jumps read the condition. -/
def irUsedRegs : IR → List Nat
  | .Add _ s1 s2 => valueRegs s1 ++ valueRegs s2
  | .Subtract _ s1 s2 => valueRegs s1 ++ valueRegs s2
  | .Multiply _ s1 s2 => valueRegs s1 ++ valueRegs s2
  | .Divide _ s1 s2 => valueRegs s1 ++ valueRegs s2
  | .Load _ src => valueRegs src
  | .Store dest src => valueRegs dest ++ valueRegs src
  | .JumpIfEqual src _ _ => valueRegs src
  | .JumpIfNotEqual src _ _ => valueRegs src
  | _ => []

/-- Registers defined by a block, in instruction order. -/
def iter_defined_registers (bb : BasicBlock) : List Nat :=
  bb.code.flatMap irDefinedRegs

/-- Registers read by a block, in instruction order. -/
def iter_used_registers (bb : BasicBlock) : List Nat :=
  bb.code.flatMap irUsedRegs

/-- Update the entry of `k` in an association list of sets
(`use_map.entry(k).or_default()`). -/
def assocUpdate (k : Nat) (f : List Nat → List Nat) :
    List (Nat × List Nat) → List (Nat × List Nat)
  | [] => [(k, f [])]
  | (k', v) :: rest =>
      if k = k' then (k', f v) :: rest else (k', v) :: assocUpdate k f rest

/-- Builds `use_map` and `define_map` exactly as `GraphQuery::new`
(`src/reg_alloc.rs`, lines 47–59): uses are unioned per register, and a
second definition of the same register trips `assert_eq!(result, None)`
(modelled as `none`). -/
def mkUseDefMaps (blocks : List BasicBlock) :
    Option (List (Nat × List Nat) × List (Nat × Nat)) :=
  (List.range blocks.length).foldlM
    (fun maps idx => do
      let bb ← blocks.get? idx
      let um := (iter_used_registers bb).foldl
        (fun um r => assocUpdate r (insertAbsent idx) um) maps.1
      let dm ← (iter_defined_registers bb).foldlM
        (fun dm r =>
          if (List.lookup r dm).isSome then none else some (dm ++ [(r, idx)]))
        maps.2
      pure (um, dm))
    ([], [])

/-- The graph `compute_graph` (`src/reg_alloc.rs`, lines 161–195) builds:
one node per block (node `i` = block `i`), edges inserted per block from
its parents and then its exits, deduplicated by `update_edge`; an index
outside the node table panics (`none`). -/
structure GraphData where
  n : Nat
  edges : List (Nat × Nat)
deriving DecidableEq, Repr

/-- `compute_graph`'s edge construction. -/
def compute_graph (bbm : BasicBlockManager) : Option GraphData := do
  let n := bbm.blocks.length
  let edges ← (List.range n).foldlM
    (fun es idx => do
      let bb ← bbm.blocks.get? idx
      let es ← bb.parents.foldlM
        (fun es p =>
          if p < n then some (insertEdgeAbsent (p, idx) es) else none) es
      bb.exits.foldlM
        (fun es e =>
          if e < n then some (insertEdgeAbsent (idx, e) es) else none) es)
    []
  pure { n := n, edges := edges }

/-- Neighbor iteration of the built graph: `petgraph` iterates outgoing
edges in reverse insertion order. -/
def GraphData.adj (gd : GraphData) (u : Nat) : List Nat :=
  ((gd.edges.filter fun e => e.1 = u).map fun e => e.2).reverse

/-- The `GraphQuery` structure (`src/reg_alloc.rs`, lines 31–40), with
the graph components replaced by their denotations over the block graph
rooted at block 0 (`bbm.start`). -/
structure GraphQuery where
  n : Nat
  adj : Nat → List Nat
  backEdges : Nat → List Nat
  reducedReach : Nat → List Nat
  sdoms : Nat → Option (List Nat)
  useMap : List (Nat × List Nat)
  defineMap : List (Nat × Nat)

/-- Evaluate an optional computation for each element eagerly, in order,
collecting the results; a `none` (panic) propagates. -/
def traverseOpt {α : Type} (f : Nat → Option α) : List Nat → Option (List α)
  | [] => some []
  | x :: xs => do
      let a ← f x
      let rest ← traverseOpt f xs
      pure (a :: rest)

/-- `GraphQuery::new` (`src/reg_alloc.rs`, lines 43–68) applied to the
graph of `compute_graph`: computes reduced reachability and back-edge
targets for every node (depth-map lookups on nodes missing from the depth
map panic), the `simple_fast` dominators, and the use/define maps. -/
def mkGraphQuery (bbm : BasicBlockManager) : Option GraphQuery := do
  let gd ← compute_graph bbm
  let bes ← traverseOpt (fun x => computeBackEdgeTargets gd.adj gd.n 0 x) (List.range gd.n)
  let maps ← mkUseDefMaps bbm.blocks
  pure
    { n := gd.n
      adj := gd.adj
      backEdges := fun x => (bes.get? x).getD []
      reducedReach := fun x => computeReducedReach gd.adj gd.n 0 x
      sdoms := fun v => strictDominators gd.adj gd.n 0 v
      useMap := maps.1
      defineMap := maps.2 }

/-- `GraphQuery::is_live_in` (`src/reg_alloc.rs`, lines 70–88).  Note
that the source function takes only the register index — no query block —
even though its caller in `src/codegen/x86_64.rs` passes one. -/
def is_live_in (gq : GraphQuery) (idx : Nat) : Option Bool := do
  let ni ← List.lookup idx gq.defineMap
  let sdoms ← gq.sdoms ni
  let usesSet ← List.lookup idx gq.useMap
  let ts := (gq.backEdges ni).filter (· ∈ sdoms)
  pure (ts.any fun t => (gq.reducedReach t).any (· ∈ usesSet))

/-- `GraphQuery::is_live_out` (`src/reg_alloc.rs`, lines 90–119). -/
def is_live_out (gq : GraphQuery) (idx node : Nat) : Option Bool := do
  let ni ← List.lookup idx gq.defineMap
  if node < gq.n then
    if ni = node then do
      let us ← List.lookup idx gq.useMap
      pure (us.any fun u => u ≠ node)
    else do
      let sdomsNode ← gq.sdoms node
      if ni ∈ sdomsNode then do
        let sdomsNi ← gq.sdoms ni
        match (gq.backEdges ni).filter (· ∈ sdomsNi) with
        | [] => pure false
        | ts => do
          let us ← List.lookup idx gq.useMap
          pure (ts.any fun t =>
            let u := if t = node ∧ node ∉ gq.backEdges node
                     then us.filter (· ≠ node) else us
            (gq.reducedReach t).any (· ∈ u))
      else pure false
  else none

/-! ## Register allocation (`src/codegen/x86_64.rs`) -/

/-- The `MachineRegister` enum from `src/codegen/x86_64.rs`. -/
inductive MachineRegister where
  | Rax | Rcx | Rdx | Rbx | Rsp | Rbp | Rsi | Rdi
  | R8 | R9 | R10 | R11 | R12 | R13 | R14 | R15
deriving DecidableEq, Repr

/-- The FIFO free pool `compute_register_map` initializes
(`src/codegen/x86_64.rs`, lines 31–41), front first. -/
def availableRegisters : List MachineRegister :=
  [.Rdx, .Rbx, .R8, .R9, .R10, .R11, .R12, .R13, .R14, .R15]

/-- Insert into the `current_map` `BTreeMap`, keeping keys sorted so that
list order is the map's iteration order. -/
def insertSorted (k : Nat) (v : MachineRegister) :
    List (Nat × MachineRegister) → List (Nat × MachineRegister)
  | [] => [(k, v)]
  | (k', v') :: rest =>
      if k < k' then (k, v) :: (k', v') :: rest
      else (k', v') :: insertSorted k v rest

/-- The "free registers that are not used on this path" loop at block
entry (`src/codegen/x86_64.rs`, lines 79–85): every `current_map` entry
whose register is not live-in is removed and its machine register pushed
on the back of the pool.  The source calls `gq.is_live_in(k, cur_idx)`
with a block argument that the `src/reg_alloc.rs` definition does not
accept; the embedded call is to that one-argument definition. -/
def releaseAtEntry (gq : GraphQuery) (cm : List (Nat × MachineRegister))
    (pool : List MachineRegister) :
    Option (List (Nat × MachineRegister) × List MachineRegister) :=
  cm.foldlM
    (fun acc kv => do
      let b ← is_live_in gq kv.1
      pure (if b then (acc.1 ++ [kv], acc.2) else (acc.1, acc.2 ++ [kv.2])))
    ([], pool)

/-- The "free registers that are not used on any path after" loop at
block exit (`src/codegen/x86_64.rs`, lines 103–109). -/
def releaseAtExit (gq : GraphQuery) (cur : Nat) (cm : List (Nat × MachineRegister))
    (pool : List MachineRegister) :
    Option (List (Nat × MachineRegister) × List MachineRegister) :=
  cm.foldlM
    (fun acc kv => do
      let b ← is_live_out gq kv.1 cur
      pure (if b then (acc.1 ++ [kv], acc.2) else (acc.1, acc.2 ++ [kv.2])))
    ([], pool)

/-- The allocation loop over the block's defined registers
(`src/codegen/x86_64.rs`, lines 90–98): pop the front of the free pool —
an empty pool is the `expect("Ran out of machine registers! ...")` panic,
modelled as `none` — and insert into `current_map` and the global result
map, both times asserting the register was absent. -/
def allocateDefs (defs : List Nat) (cm : List (Nat × MachineRegister))
    (pool : List MachineRegister) (out : List (Nat × MachineRegister)) :
    Option (List (Nat × MachineRegister) × List MachineRegister ×
            List (Nat × MachineRegister)) :=
  defs.foldlM
    (fun st r =>
      match st.2.1 with
      | [] => none
      | m :: rest =>
          if (List.lookup r st.1).isSome then none
          else if (List.lookup r st.2.2).isSome then none
          else some (insertSorted r m st.1, rest, st.2.2 ++ [(r, m)]))
    (cm, pool, out)

/-- `build_register_map_inner` (`src/codegen/x86_64.rs`, lines 60–121).
`seen` and the result map `out` are threaded through the depth-first
walk (they are `&mut` in the source); `current_map` and the pool are
cloned per path.  `fuel` bounds the recursion depth; the callers pass
more fuel than there are blocks, which the walk (which visits each block
at most once thanks to `seen`) can never exhaust. -/
def build_register_map_inner (bbm : BasicBlockManager) (gq : GraphQuery) :
    Nat → Nat → List (Nat × MachineRegister) → List MachineRegister →
    List Nat → List (Nat × MachineRegister) →
    Option (List Nat × List (Nat × MachineRegister))
  | 0, _, _, _, _, _ => none
  | fuel + 1, cur, cm, pool, seen, out =>
      if cur ∈ seen then some (seen, out)
      else do
        let seen1 := seen ++ [cur]
        let (cm1, pool1) ← releaseAtEntry gq cm pool
        let bb ← bbm.blocks.get? cur
        let (cm2, pool2, out1) ← allocateDefs (iter_defined_registers bb) cm1 pool1 out
        let (cm3, pool3) ← releaseAtExit gq cur cm2 pool2
        bb.exits.foldlM
          (fun acc ex =>
            build_register_map_inner bbm gq fuel ex cm3 pool3 acc.1 acc.2)
          (seen1, out1)

/-- `compute_register_map` (`src/codegen/x86_64.rs`, lines 30–58): build
the graph and the liveness query, then walk from `bbm.start` (block 0)
with the ten-register FIFO pool. -/
def compute_register_map (bbm : BasicBlockManager) :
    Option (List (Nat × MachineRegister)) := do
  let gq ← mkGraphQuery bbm
  let (_, out) ←
    build_register_map_inner bbm gq (bbm.blocks.length + 2) 0 [] availableRegisters [] []
  pure out

/-! ## Builder operations on a `Context` (`src/ir.rs`)

The client-visible mutations are modelled as an operation language; the
process-wide `LAST_REGISTER` counter is threaded explicitly next to the
`Context`. -/

/-- `BasicBlockManager::process_messages` (`src/ir.rs`, lines 281–289):
drain the channel in FIFO order, appending each `Jump(src, target)`'s
source to the target's parents; `self.blocks[target.0]` panics for an
out-of-range target. -/
def processMessages (bbm : BasicBlockManager) : Option BasicBlockManager := do
  let blocks ← bbm.msgs.foldlM
    (fun bs m => do
      let bb ← bs.get? m.2
      pure (bs.set m.2 { bb with parents := bb.parents ++ [m.1] }))
    bbm.blocks
  pure { blocks := blocks, msgs := [] }

/-- `BasicBlockManager::new_basic_block` (`src/ir.rs`, lines 299–311):
process pending messages, then append an empty block and return its
index. -/
def new_basic_block (bbm : BasicBlockManager) : Option (BasicBlockManager × Nat) := do
  let bbm ← processMessages bbm
  pure ({ bbm with blocks := bbm.blocks ++ [{ parents := [], exits := [], code := [] }] },
        bbm.blocks.length)

/-- `BasicBlockManager::finalize` (`src/ir.rs`, lines 315–317). -/
def BasicBlockManager.finalize (bbm : BasicBlockManager) : Option BasicBlockManager :=
  processMessages bbm

/-- The builder operations a client can perform on a `Context`
(`Context`/`BasicBlock` methods in `src/ir.rs`). -/
inductive COp where
  | newBlock
  | addParent (b p : Nat)
  | jump (b t : Nat)
  | add (b : Nat) (v1 v2 : Value)
  | subtract (b : Nat) (v1 v2 : Value)
  | pushInstruction (b : Nat) (i : IR)
  | finalizeOp
deriving DecidableEq, Repr

/-- Replace block `b` (obtained through `Context::build_basic_block`,
whose `get_mut(bi).unwrap()` panics when the index is out of range). -/
def withBlock (bbm : BasicBlockManager) (b : Nat)
    (f : BasicBlock → BasicBlock × List (Nat × Nat)) : Option BasicBlockManager := do
  let bb ← bbm.blocks.get? b
  let (bb', newMsgs) := f bb
  pure { blocks := bbm.blocks.set b bb', msgs := bbm.msgs ++ newMsgs }

/-- One builder operation.  The `Nat` component is the process-wide
`LAST_REGISTER` counter (`src/ir.rs`, lines 140–142): `BasicBlock::add`
and `BasicBlock::subtract` increment it first and use the incremented
value as the fresh register index (`src/ir.rs`, lines 198–226).
`Context::finalize` (`src/ir.rs`, lines 127–130) processes messages and
then builds the analysis graph, whose construction panics on invalid
edge indices. -/
def stepOp : COp → Context × Nat → Option (Context × Nat)
  | .newBlock, (ctx, lr) => do
      let (bbm, _) ← new_basic_block ctx.basicBlocks
      pure ({ ctx with basicBlocks := bbm }, lr)
  | .addParent b p, (ctx, lr) => do
      let bbm ← withBlock ctx.basicBlocks b fun bb =>
        ({ bb with parents := bb.parents ++ [p] }, [])
      pure ({ ctx with basicBlocks := bbm }, lr)
  | .jump b t, (ctx, lr) => do
      let bbm ← withBlock ctx.basicBlocks b fun bb =>
        ({ bb with exits := bb.exits ++ [t], code := bb.code ++ [.Jump t] }, [(b, t)])
      pure ({ ctx with basicBlocks := bbm }, lr)
  | .add b v1 v2, (ctx, lr) => do
      let bbm ← withBlock ctx.basicBlocks b fun bb =>
        ({ bb with code := bb.code ++ [.Add (lr + 1) v1 v2] }, [])
      pure ({ ctx with basicBlocks := bbm }, lr + 1)
  | .subtract b v1 v2, (ctx, lr) => do
      let bbm ← withBlock ctx.basicBlocks b fun bb =>
        ({ bb with code := bb.code ++ [.Subtract (lr + 1) v1 v2] }, [])
      pure ({ ctx with basicBlocks := bbm }, lr + 1)
  | .pushInstruction b i, (ctx, lr) => do
      let bbm ← withBlock ctx.basicBlocks b fun bb =>
        ({ bb with code := bb.code ++ [i] }, [])
      pure ({ ctx with basicBlocks := bbm }, lr)
  | .finalizeOp, (ctx, lr) => do
      let bbm ← ctx.basicBlocks.finalize
      let _ ← compute_graph bbm
      pure ({ ctx with basicBlocks := bbm }, lr)

/-- Run a list of builder operations on a state. -/
def runOpsFrom (st : Context × Nat) (ops : List COp) : Option (Context × Nat) :=
  ops.foldlM (fun st op => stepOp op st) st

/-- Run a list of builder operations from a fresh context with the
process counter at 0. -/
def runOps (ops : List COp) : Option (Context × Nat) :=
  runOpsFrom (Context.new, 0) ops

/-- Two contexts alive in one process: operations tagged `false` go to
the first context, `true` to the second; `LAST_REGISTER` is shared
because it is a process-wide `lazy_static`. -/
def runTwo (ops : List (Bool × COp)) : Option (Context × Context × Nat) :=
  ops.foldlM
    (fun st op =>
      if op.1 then do
        let (c2, lr) ← stepOp op.2 (st.2.1, st.2.2)
        pure (st.1, c2, lr)
      else do
        let (c1, lr) ← stepOp op.2 (st.1, st.2.2)
        pure (c1, st.2.1, lr))
    (Context.new, Context.new, 0)

/-! ## The chained-add programs (spec §8, over-allocation scenario) -/

/-- Straight-line block body with `k` chained adds: `r1 = 0 + 1`,
`r(i+1) = r(i) + 1`, followed by a `Store` that reads the final register
(so every defined register has a recorded use). -/
def chainCode (k : Nat) : List IR :=
  ((List.range k).map fun i =>
    if i = 0 then IR.Add 1 (.Immediate .U32 0) (.Immediate .U32 1)
    else IR.Add (i + 1) (.Register i) (.Immediate .U32 1)) ++
  [IR.Store (.Register k) (.Register k)]

/-- The single block of `chainBbm`. -/
def chainBlock (k : Nat) : BasicBlock :=
  { parents := [], exits := [], code := chainCode k }

/-- A one-block manager holding the `k`-chain. -/
def chainBbm (k : Nat) : BasicBlockManager :=
  { blocks := [chainBlock k], msgs := [] }

/-- The use map accumulated for the chain block by `mkUseDefMaps`. -/
def chainUm (k : Nat) : List (Nat × List Nat) :=
  (iter_used_registers (chainBlock k)).foldl
    (fun um r => assocUpdate r (insertAbsent 0) um) []

/-- Builder script: block 0 defines register 1 and jumps to block 1,
which uses register 1 without defining it. -/
def twoBlockUseOps : List COp :=
  [.newBlock, .newBlock, .add 0 (.Immediate .U32 2) (.Immediate .U32 2), .jump 0 1,
   .pushInstruction 1 (.Store (.Register 1) (.Register 1)), .finalizeOp]

/-- Builder script: a second block declares block 0 as a parent via
`add_parent` although block 0 never jumps to it. -/
def parentOnlyOps : List COp :=
  [.newBlock, .newBlock, .addParent 1 0, .finalizeOp]

/-- Two contexts interleaved in one process: each creates one block and
performs one `add`. -/
def interleavedOps : List (Bool × COp) :=
  [(false, .newBlock), (true, .newBlock),
   (false, .add 0 (.Immediate .U32 1) (.Immediate .U32 1)),
   (true, .add 0 (.Immediate .U32 1) (.Immediate .U32 1))]

/-- The second context running the same operations alone. -/
def aloneOps : List (Bool × COp) :=
  [(true, .newBlock), (true, .add 0 (.Immediate .U32 1) (.Immediate .U32 1))]

/-! ## Invariants used to reason about the BFS of
`compute_reduced_graph_and_depth_map` -/

/-- Reachability along the adjacency function. -/
inductive Reach (adj : Nat → List Nat) : Nat → Nat → Prop where
  | refl (u : Nat) : Reach adj u u
  | tail {u v w : Nat} : Reach adj u v → w ∈ adj v → Reach adj u w

/-- All recorded nodes are in range. -/
def SeenValid (n : Nat) (st : BfsState) : Prop := ∀ p ∈ st.seen, p.1 < n

/-- Each node is recorded at most once (the BFS inserts a node only when
its lookup fails). -/
def SeenNodup (st : BfsState) : Prop := (st.seen.map Prod.fst).Nodup

/-- Every queue entry's node is recorded, and its generation is the
recorded depth or that depth plus one (the initial `(start, 0)` entry has
generation = depth; every pushed entry has generation = depth + 1). -/
def QueueConsistent (st : BfsState) : Prop :=
  ∀ p ∈ st.queue, ∃ d, List.lookup p.1 st.seen = some d ∧ d ≤ p.2 ∧ p.2 ≤ d + 1

/-- Every removed edge runs from a recorded node to a recorded node of
depth not larger than the source's depth. -/
def RemovedConsistent (st : BfsState) : Prop :=
  ∀ e ∈ st.removed, ∃ du dv, List.lookup e.1 st.seen = some du ∧
    List.lookup e.2 st.seen = some dv ∧ dv ≤ du

/-- Every recorded node is either still queued or fully processed: each
of its neighbors is recorded and the connecting edge is either removed or
goes to depth at least the source's depth. -/
def DecidedInv (adj : Nat → List Nat) (st : BfsState) : Prop :=
  ∀ u d, List.lookup u st.seen = some d →
    (∃ g, (u, g) ∈ st.queue) ∨
    ∀ v ∈ adj u, ∃ dv, List.lookup v st.seen = some dv ∧
      ((u, v) ∈ st.removed ∨ d ≤ dv)

/-- The full loop invariant. -/
def BfsInv (adj : Nat → List Nat) (n : Nat) (st : BfsState) : Prop :=
  SeenValid n st ∧ SeenNodup st ∧ QueueConsistent st ∧ RemovedConsistent st ∧
    DecidedInv adj st

/-- Termination measure of the BFS loop. -/
def bfsMeasure (n : Nat) (st : BfsState) : Nat :=
  (n - st.seen.length) + st.queue.length

/-- Like `DecidedInv`, but the node currently being processed is
exempt. -/
def DecidedExcept (adj : Nat → List Nat) (st : BfsState) (x : Nat) : Prop :=
  ∀ u d, List.lookup u st.seen = some d → u ≠ x →
    (∃ g, (u, g) ∈ st.queue) ∨
    ∀ v ∈ adj u, ∃ dv, List.lookup v st.seen = some dv ∧
      ((u, v) ∈ st.removed ∨ d ≤ dv)

/-- A one-block manager with an empty block (all of whose blocks are
trivially reachable from the entry). -/
def singleBlockBbm : BasicBlockManager :=
  { blocks := [{ parents := [], exits := [], code := [] }], msgs := [] }

/-- Invariant of the builder: every recorded exit edge either has a
pending channel message or its mirror parent entry already exists. -/
def MirrorInv (bbm : BasicBlockManager) : Prop :=
  ∀ b bb, bbm.blocks.get? b = some bb → ∀ s ∈ bb.exits,
    (b, s) ∈ bbm.msgs ∨
    ∃ bbS, bbm.blocks.get? s = some bbS ∧ b ∈ bbS.parents

/-- The query structure `mkGraphQuery` computes for `chainBbm k`. -/
def chainGq (k : Nat) : GraphQuery :=
  { n := 1
    adj := GraphData.adj { n := 1, edges := [] }
    backEdges := fun x => ((([[]] : List (List Nat)).get? x).getD [])
    reducedReach := fun x => computeReducedReach (GraphData.adj { n := 1, edges := [] }) 1 0 x
    sdoms := fun v => strictDominators (GraphData.adj { n := 1, edges := [] }) 1 0 v
    useMap := chainUm k
    defineMap := ((List.range k).map (· + 1)).map fun r => (r, 0) }

/-! # Theorems -/

/-- C8: for every `Add` or `Subtract` instruction whose two operands are
immediates of identical width `w`, the value the emitted code leaves in
the destination register agrees, at width `w`, with the two's-complement
constant fold of the payloads (`dest = v1 + v2` resp. `dest = v1 - v2`),
for every pair of payloads representable at width `w`.  (The 32-bit arm
sign-extends into the upper half of the 64-bit register, so agreement is
at the operand width, the width at which the result is defined.) -/
theorem imm_imm_fold_roundtrip (ty : PrimitiveValue) (v1 v2 : Nat)
    (h1 : v1 < 2 ^ ty.width) (h2 : v2 < 2 ^ ty.width) :
    generate_add_imm_imm ty v1 v2 % 2 ^ ty.width = spec_fold_add ty.width v1 v2 ∧
    generate_sub_imm_imm ty v1 v2 % 2 ^ ty.width = spec_fold_sub ty.width v1 v2 := by
  cases ty <;> constructor <;>
    simp only [generate_add_imm_imm, generate_sub_imm_imm, emit_mov_imm_result,
      usizeAdd, usizeSub, spec_fold_add, spec_fold_sub, PrimitiveValue.width] at * <;>
    (try split) <;> omega

/-- Witness for C8 at `U8`, `v1 = 3`, `v2 = 200`. -/
theorem imm_imm_fold_roundtrip_witness :
    generate_add_imm_imm .U8 3 200 % 2 ^ 8 = spec_fold_add 8 3 200 ∧
    generate_sub_imm_imm .U8 3 200 % 2 ^ 8 = spec_fold_sub 8 3 200 :=
  imm_imm_fold_roundtrip .U8 3 200 (by norm_num [PrimitiveValue.width])
    (by norm_num [PrimitiveValue.width])

/-- Helper: the constants accumulated by `registerAll`. -/
theorem registerAll_constants (cs : List (List Nat)) :
    ∀ ctx : Context, (registerAll ctx cs).constants = ctx.constants ++ cs := by
  induction cs with
  | nil => intro ctx; simp [registerAll]
  | cons c cs ih =>
      intro ctx
      simp [registerAll, add_constant, ih]

/-- Helper: the indices handed out by a registration sequence. -/
theorem registrationIndices_eq (cs : List (List Nat)) :
    ∀ ctx : Context,
      registrationIndices ctx cs = List.range' ctx.constants.length cs.length := by
  induction cs with
  | nil => intro ctx; simp [registrationIndices]
  | cons c cs ih =>
      intro ctx
      simp [registrationIndices, add_constant, ih, List.range'_succ]

/-- C10: registering a sequence of constants with a fresh `Context`
assigns dense indices in registration order (the `i`-th registration
returns index `i`), `get_constant` on a returned index yields exactly the
registered bytes, and `get_constant` on an index that was never returned
yields `none`. -/
theorem add_get_constant_roundtrip (cs : List (List Nat)) :
    registrationIndices Context.new cs = List.range cs.length ∧
    (∀ i : Nat, ∀ h : i < cs.length,
      get_constant (registerAll Context.new cs) i = some (cs.get ⟨i, h⟩)) ∧
    (∀ j : Nat, cs.length ≤ j → get_constant (registerAll Context.new cs) j = none) := by
  refine ⟨?_, ?_, ?_⟩
  · rw [registrationIndices_eq, List.range_eq_range']
    rfl
  · intro i h
    rw [get_constant, registerAll_constants]
    simp [Context.new, List.get?_eq_get, h]
  · intro j hj
    rw [get_constant, registerAll_constants]
    simp only [Context.new, List.nil_append]
    exact List.get?_eq_none.mpr hj

/-- Witness for C10 on the two-constant sequence `[[5], [7]]`. -/
theorem add_get_constant_roundtrip_witness :
    registrationIndices Context.new [[5], [7]] = [0, 1] ∧
    get_constant (registerAll Context.new [[5], [7]]) 1 = some [7] ∧
    get_constant (registerAll Context.new [[5], [7]]) 3 = none := by
  refine ⟨(add_get_constant_roundtrip [[5], [7]]).1, ?_, ?_⟩
  · have h := (add_get_constant_roundtrip [[5], [7]]).2.1 1 (by norm_num)
    simpa using h
  · exact (add_get_constant_roundtrip [[5], [7]]).2.2 3 (by norm_num)

/-- C3 (code bug): on the two-node graph `0 → 1`, the entry is traversed
with generation 0, and its newly discovered successor is recorded in the
depth map with depth 0 — the traversing generation, not generation+1 as
the spec states — while the pushed queue entry carries generation 1.
The recorded depth map is `[(0, 0), (1, 0)]`. -/
theorem depth_label_is_generation_not_succ :
    (compute_reduced_graph_and_depth_map (fun u => if u = 0 then [1] else []) 2 0).seen
        = [(0, 0), (1, 0)] ∧
    List.lookup 1
        (compute_reduced_graph_and_depth_map (fun u => if u = 0 then [1] else []) 2 0).seen
        = some 0 := by
  constructor <;> rfl

/-- C1 (code bug): in the two-block program built by `twoBlockUseOps`,
register 1 is used in block 1 (`Store` reads it twice) and block 1
contains no definition of it, so the claimed `live-in(1, block 1)` is
true; but `is_live_in` — which does not even take a query block —
returns `false`. -/
theorem is_live_in_ignores_blockwise_uses :
    ((runOps twoBlockUseOps).bind fun st =>
        (mkGraphQuery st.1.basicBlocks).bind fun gq => is_live_in gq 1) = some false ∧
    ((runOps twoBlockUseOps).bind fun st => st.1.basicBlocks.blocks.get? 1) =
      some { parents := [0], exits := [],
             code := [.Store (.Register 1) (.Register 1)] } := by
  constructor <;> rfl

/-- C9 (code bug): the register counter is the process-wide
`LAST_REGISTER`, not a per-`Context` counter.  Within one context
successive definitions do get strictly increasing indices (third
conjunct), but the first register of the second context is 2 when another
context has already allocated one register (first conjunct) and 1 when
the second context runs alone (second conjunct): indices handed out in
one context depend on operations performed on the other. -/
theorem register_counter_is_process_wide :
    ((runTwo interleavedOps).bind fun st => st.2.1.basicBlocks.blocks.get? 0).map
        BasicBlock.code =
      some [.Add 2 (.Immediate .U32 1) (.Immediate .U32 1)] ∧
    ((runTwo aloneOps).bind fun st => st.2.1.basicBlocks.blocks.get? 0).map
        BasicBlock.code =
      some [.Add 1 (.Immediate .U32 1) (.Immediate .U32 1)] ∧
    ((runOps [.newBlock,
        .add 0 (.Immediate .U32 1) (.Immediate .U32 1),
        .add 0 (.Immediate .U32 1) (.Immediate .U32 1)]).bind fun st =>
          st.1.basicBlocks.blocks.get? 0).map BasicBlock.code =
      some [.Add 1 (.Immediate .U32 1) (.Immediate .U32 1),
            .Add 2 (.Immediate .U32 1) (.Immediate .U32 1)] := by
  refine ⟨rfl, rfl, rfl⟩

/-- C6 counterexample: after finalize of `parentOnlyOps`, block 0 appears
in block 1's parents (via `add_parent`) but block 1 does not appear in
block 0's exits — the "vice versa" direction of the claim fails. -/
theorem parent_without_exit_after_finalize :
    ((runOps parentOnlyOps).bind fun st => st.1.basicBlocks.blocks.get? 1) =
      some { parents := [0], exits := [], code := [] } ∧
    ((runOps parentOnlyOps).bind fun st => st.1.basicBlocks.blocks.get? 0) =
      some { parents := [], exits := [], code := [] } := by
  constructor <;> rfl

/-- C5 counterexample: on the straight-line program defining 11
simultaneously-live virtual registers, `compute_register_map` hits the
`expect("Ran out of machine registers! ...")` panic (modelled `none`):
compilation aborts, and no "out of registers" error value is returned to
the caller (the returned `CodeGenErrorReason` enum has no such variant). -/
theorem eleven_registers_panics :
    compute_register_map (chainBbm 11) = none := by
  rfl

/-- C4 counterexample: on the graph with edges `0→0`, `0→1`, `0→2`,
`1→2`, the BFS removes the edge `(1, 2)` although nodes 1 and 2 have
equal recorded depth (0), so the removed edge is not a back-edge in the
claimed strict sense; and the self-loop `0→0` survives into the reduced
graph, which is therefore not acyclic. -/
theorem removed_edge_not_strict_back_edge :
    (1, 2) ∈ (compute_reduced_graph_and_depth_map
        (fun u => if u = 0 then [0, 1, 2] else if u = 1 then [2] else []) 3 0).removed ∧
    List.lookup 1 (compute_reduced_graph_and_depth_map
        (fun u => if u = 0 then [0, 1, 2] else if u = 1 then [2] else []) 3 0).seen
      = some 0 ∧
    List.lookup 2 (compute_reduced_graph_and_depth_map
        (fun u => if u = 0 then [0, 1, 2] else if u = 1 then [2] else []) 3 0).seen
      = some 0 ∧
    (0, 0) ∈ graphEdges
        (reducedAdj (fun u => if u = 0 then [0, 1, 2] else if u = 1 then [2] else [])
          (compute_reduced_graph_and_depth_map
            (fun u => if u = 0 then [0, 1, 2] else if u = 1 then [2] else []) 3 0).removed)
        3 := by
  refine ⟨?_, rfl, rfl, ?_⟩ <;> decide

/-- C7: when `def(r) = q` (and the lookups the query performs succeed),
`is_live_out(r, q)` returns `true` exactly when some recorded use of `r`
lies in a block other than `q`, and `false` exactly when every use lies
in `q` itself. -/
theorem is_live_out_at_defining_block (gq : GraphQuery) (r q : Nat) (us : List Nat)
    (hq : q < gq.n)
    (hdef : List.lookup r gq.defineMap = some q)
    (huse : List.lookup r gq.useMap = some us) :
    (is_live_out gq r q = some true ↔ ∃ u ∈ us, u ≠ q) ∧
    (is_live_out gq r q = some false ↔ ∀ u ∈ us, u = q) := by
  have hmain : is_live_out gq r q = some (us.any fun u => decide (u ≠ q)) := by
    simp only [is_live_out, hdef, Option.bind_eq_bind, Option.some_bind, if_pos hq,
      if_pos rfl, huse, if_true]
    rfl
  rw [hmain]
  have h1 : (some (us.any fun u => decide (u ≠ q)) = some true) ↔ ∃ u ∈ us, u ≠ q := by
    simp [List.any_eq_true]
  refine ⟨h1, ?_⟩
  have h2 : (∀ u ∈ us, u = q) ↔ ¬ ∃ u ∈ us, u ≠ q := by
    push_neg
    tauto
  rw [h2, ← h1]
  cases us.any fun u => decide (u ≠ q) <;> simp

/-- Witness for C7 on a concrete query structure whose register 5 is
defined in block 0 and used only there. -/
theorem is_live_out_at_defining_block_witness :
    is_live_out
      { n := 1, adj := fun _ => [], backEdges := fun _ => [],
        reducedReach := fun _ => [], sdoms := fun _ => none,
        useMap := [(5, [0])], defineMap := [(5, 0)] } 5 0 = some false := by
  exact (is_live_out_at_defining_block
    { n := 1, adj := fun _ => [], backEdges := fun _ => [],
      reducedReach := fun _ => [], sdoms := fun _ => none,
      useMap := [(5, [0])], defineMap := [(5, 0)] } 5 0 [0]
    (by norm_num) rfl rfl).2.mpr (by simp)

theorem lookup_cons' {β : Type} (k a : Nat) (b : β) (t : List (Nat × β)) :
    List.lookup k ((a, b) :: t) = if k = a then some b else List.lookup k t := by
  simp only [List.lookup]
  by_cases hk : k = a
  · rw [if_pos hk, show (k == a) = true from beq_iff_eq.mpr hk]
  · rw [if_neg hk, show (k == a) = false from beq_eq_false_iff_ne.mpr hk]

theorem lookup_append_some {β : Type} {l l' : List (Nat × β)} {k : Nat} {v : β}
    (h : List.lookup k l = some v) : List.lookup k (l ++ l') = some v := by
  induction l with
  | nil => simp [List.lookup] at h
  | cons p t ih =>
      rcases p with ⟨a, b⟩
      rw [lookup_cons'] at h
      rw [List.cons_append, lookup_cons']
      split at h
      · rw [if_pos (by assumption)]; exact h
      · rw [if_neg (by assumption)]; exact ih h

theorem lookup_append_none {β : Type} {l : List (Nat × β)} {k : Nat}
    (h : List.lookup k l = none) (l' : List (Nat × β)) :
    List.lookup k (l ++ l') = List.lookup k l' := by
  induction l with
  | nil => simp
  | cons p t ih =>
      rcases p with ⟨a, b⟩
      rw [lookup_cons'] at h
      rw [List.cons_append, lookup_cons']
      split at h
      · exact absurd h (by simp)
      · rw [if_neg (by assumption)]; exact ih h

theorem lookup_none_iff {β : Type} {l : List (Nat × β)} {k : Nat} :
    List.lookup k l = none ↔ k ∉ l.map Prod.fst := by
  induction l with
  | nil => simp
  | cons p t ih =>
      rcases p with ⟨a, b⟩
      rw [lookup_cons']
      by_cases hk : k = a <;> simp [hk, ih]

theorem lookup_mem {β : Type} {l : List (Nat × β)} {k : Nat} {v : β}
    (h : List.lookup k l = some v) : (k, v) ∈ l := by
  induction l with
  | nil => simp [List.lookup] at h
  | cons p t ih =>
      rcases p with ⟨a, b⟩
      rw [lookup_cons'] at h
      split at h
      · subst_vars; cases h; simp
      · exact List.mem_cons_of_mem _ (ih h)

theorem seen_length_lt {n : Nat} {st : BfsState} {v : Nat}
    (h1 : SeenValid n st) (h2 : SeenNodup st) (hv : v < n)
    (hfresh : List.lookup v st.seen = none) : st.seen.length < n := by
  have hkeys : (v :: st.seen.map Prod.fst).Nodup := by
    refine List.nodup_cons.mpr ⟨lookup_none_iff.mp hfresh, h2⟩
  have hsub : (v :: st.seen.map Prod.fst) ⊆ List.range n := by
    intro x hx
    rcases List.mem_cons.mp hx with rfl | hx
    · exact List.mem_range.mpr hv
    · rcases List.mem_map.mp hx with ⟨p, hp, rfl⟩
      exact List.mem_range.mpr (h1 p hp)
  have := (hkeys.subperm hsub).length_le
  simpa [List.length_range] using this

theorem bfsVisit_step (adj : Nat → List Nat) (n node gen dn v : Nat) (st : BfsState)
    (hdn1 : dn ≤ gen) (hdn2 : gen ≤ dn + 1) (hv : v < n)
    (h1 : SeenValid n st) (h2 : SeenNodup st) (h3 : QueueConsistent st)
    (h4 : RemovedConsistent st) (h5 : DecidedExcept adj st node)
    (hnode : List.lookup node st.seen = some dn) :
    SeenValid n (bfsVisitNeighbor node gen st v) ∧
    SeenNodup (bfsVisitNeighbor node gen st v) ∧
    QueueConsistent (bfsVisitNeighbor node gen st v) ∧
    RemovedConsistent (bfsVisitNeighbor node gen st v) ∧
    DecidedExcept adj (bfsVisitNeighbor node gen st v) node ∧
    (∀ k d, List.lookup k st.seen = some d →
      List.lookup k (bfsVisitNeighbor node gen st v).seen = some d) ∧
    (∀ e ∈ st.removed, e ∈ (bfsVisitNeighbor node gen st v).removed) ∧
    (∀ p ∈ st.queue, p ∈ (bfsVisitNeighbor node gen st v).queue) ∧
    (∃ dv, List.lookup v (bfsVisitNeighbor node gen st v).seen = some dv ∧
      ((node, v) ∈ (bfsVisitNeighbor node gen st v).removed ∨ dn ≤ dv)) ∧
    bfsMeasure n (bfsVisitNeighbor node gen st v) ≤ bfsMeasure n st := by
  unfold bfsVisitNeighbor
  cases hl : List.lookup v st.seen with
  | some dv =>
      dsimp only
      by_cases hlt : dv < gen
      · rw [if_pos hlt]
        refine ⟨h1, h2, h3, ?_, ?_, fun k d h => h, fun e he => List.mem_append_left _ he,
          fun p hp => hp, ⟨dv, hl, Or.inl (by simp)⟩, le_refl _⟩
        · intro e he
          rcases List.mem_append.mp he with he | he
          · exact h4 e he
          · rcases List.mem_singleton.mp he with rfl
            exact ⟨dn, dv, hnode, hl, by omega⟩
        · intro u d hu hne
          rcases h5 u d hu hne with hque | hproc
          · exact Or.inl hque
          · refine Or.inr fun w hw => ?_
            rcases hproc w hw with ⟨dw, hdw, hrest⟩
            exact ⟨dw, hdw, hrest.imp (fun h => List.mem_append_left _ h) id⟩
      · rw [if_neg hlt]
        exact ⟨h1, h2, h3, h4, h5, fun k d h => h, fun e he => he, fun p hp => hp,
          ⟨dv, hl, Or.inr (by omega)⟩, le_refl _⟩
  | none =>
      dsimp only
      have hlen : st.seen.length < n := seen_length_lt h1 h2 hv hl
      have hstab : ∀ k d, List.lookup k st.seen = some d →
          List.lookup k (st.seen ++ [(v, gen)]) = some d := fun k d h =>
        lookup_append_some h
      have hvnew : List.lookup v (st.seen ++ [(v, gen)]) = some gen := by
        rw [lookup_append_none hl, lookup_cons', if_pos rfl]
      refine ⟨?_, ?_, ?_, ?_, ?_, hstab, fun e he => he, fun p hp => List.mem_append_left _ hp,
        ⟨gen, hvnew, Or.inr hdn1⟩, ?_⟩
      · intro p hp
        rcases List.mem_append.mp hp with hp | hp
        · exact h1 p hp
        · rcases List.mem_singleton.mp hp with rfl
          exact hv
      · have : ((st.seen ++ [(v, gen)]).map Prod.fst) = st.seen.map Prod.fst ++ [v] := by
          simp
        rw [SeenNodup, this]
        simp only [List.nodup_append, List.nodup_cons, List.not_mem_nil, not_false_iff,
          List.nodup_nil, and_true, true_and]
        refine ⟨h2, ?_⟩
        intro a ha hb
        rcases List.mem_singleton.mp hb with rfl
        exact (lookup_none_iff.mp hl) ha
      · intro p hp
        rcases List.mem_append.mp hp with hp | hp
        · rcases h3 p hp with ⟨d, hd, hb1, hb2⟩
          exact ⟨d, hstab _ _ hd, hb1, hb2⟩
        · rcases List.mem_singleton.mp hp with rfl
          exact ⟨gen, hvnew, by omega, by omega⟩
      · intro e he
        rcases h4 e he with ⟨du, dv', hdu, hdv, hle⟩
        exact ⟨du, dv', hstab _ _ hdu, hstab _ _ hdv, hle⟩
      · intro u d hu hne
        cases hu' : List.lookup u st.seen with
        | some d' =>
            have heq : List.lookup u (st.seen ++ [(v, gen)]) = some d' := hstab _ _ hu'
            rw [hu] at heq
            rw [show d' = d from (Option.some.inj heq).symm] at hu'
            rcases h5 u d hu' hne with hque | hproc
            · rcases hque with ⟨g, hg⟩
              exact Or.inl ⟨g, List.mem_append_left _ hg⟩
            · refine Or.inr fun w hw => ?_
              rcases hproc w hw with ⟨dw, hdw, hrest⟩
              exact ⟨dw, hstab _ _ hdw, hrest⟩
        | none =>
            have : List.lookup u (st.seen ++ [(v, gen)]) = List.lookup u [(v, gen)] :=
              lookup_append_none hu' _
            rw [hu, lookup_cons'] at this
            by_cases huv : u = v
            · subst huv
              exact Or.inl ⟨gen + 1, List.mem_append_right _ (by simp)⟩
            · rw [if_neg huv] at this
              simp at this
      · show (n - (st.seen ++ [(v, gen)]).length) + (st.queue ++ [(v, gen + 1)]).length ≤
          (n - st.seen.length) + st.queue.length
        simp only [List.length_append, List.length_singleton]
        omega

theorem bfsFold_spec (adj : Nat → List Nat) (n node gen dn : Nat)
    (hdn1 : dn ≤ gen) (hdn2 : gen ≤ dn + 1) :
    ∀ (l : List Nat) (st : BfsState),
      (∀ v ∈ l, v < n) →
      SeenValid n st → SeenNodup st → QueueConsistent st → RemovedConsistent st →
      DecidedExcept adj st node →
      List.lookup node st.seen = some dn →
      SeenValid n (l.foldl (bfsVisitNeighbor node gen) st) ∧
      SeenNodup (l.foldl (bfsVisitNeighbor node gen) st) ∧
      QueueConsistent (l.foldl (bfsVisitNeighbor node gen) st) ∧
      RemovedConsistent (l.foldl (bfsVisitNeighbor node gen) st) ∧
      DecidedExcept adj (l.foldl (bfsVisitNeighbor node gen) st) node ∧
      (∀ k d, List.lookup k st.seen = some d →
        List.lookup k (l.foldl (bfsVisitNeighbor node gen) st).seen = some d) ∧
      (∀ e ∈ st.removed, e ∈ (l.foldl (bfsVisitNeighbor node gen) st).removed) ∧
      (∀ p ∈ st.queue, p ∈ (l.foldl (bfsVisitNeighbor node gen) st).queue) ∧
      (∀ v ∈ l, ∃ dv, List.lookup v (l.foldl (bfsVisitNeighbor node gen) st).seen = some dv ∧
        ((node, v) ∈ (l.foldl (bfsVisitNeighbor node gen) st).removed ∨ dn ≤ dv)) ∧
      bfsMeasure n (l.foldl (bfsVisitNeighbor node gen) st) ≤ bfsMeasure n st := by
  intro l
  induction l with
  | nil =>
      intro st _ h1 h2 h3 h4 h5 hnode
      exact ⟨h1, h2, h3, h4, h5, fun k d h => h, fun e he => he, fun p hp => hp,
        by simp, le_refl _⟩
  | cons v l ih =>
      intro st hbound h1 h2 h3 h4 h5 hnode
      have hv : v < n := hbound v (by simp)
      obtain ⟨s1, s2, s3, s4, s5, sstab, srem, sque, ⟨dv, hdv, hdvp⟩, smeas⟩ :=
        bfsVisit_step adj n node gen dn v st hdn1 hdn2 hv h1 h2 h3 h4 h5 hnode
      have hnode1 : List.lookup node (bfsVisitNeighbor node gen st v).seen = some dn :=
        sstab _ _ hnode
      obtain ⟨f1, f2, f3, f4, f5, fstab, frem, fque, fproc, fmeas⟩ :=
        ih (bfsVisitNeighbor node gen st v) (fun w hw => hbound w (by simp [hw]))
          s1 s2 s3 s4 s5 hnode1
      rw [List.foldl_cons]
      refine ⟨f1, f2, f3, f4, f5, ?_, ?_, ?_, ?_, le_trans fmeas smeas⟩
      · exact fun k d h => fstab _ _ (sstab _ _ h)
      · exact fun e he => frem _ (srem _ he)
      · exact fun p hp => fque _ (sque _ hp)
      · intro w hw
        rcases List.mem_cons.mp hw with rfl | hw
        · exact ⟨dv, fstab _ _ hdv, hdvp.imp (fun h => frem _ h) id⟩
        · exact fproc w hw

theorem bfsProcessNode_eq (adj : Nat → List Nat) (node gen : Nat) (st : BfsState) :
    bfsProcessNode adj node gen st = (adj node).foldl (bfsVisitNeighbor node gen) st := rfl

theorem bfsLoop_spec (adj : Nat → List Nat) (n : Nat)
    (hadj : ∀ u < n, ∀ v ∈ adj u, v < n) :
    ∀ (fuel : Nat) (st : BfsState), BfsInv adj n st →
      BfsInv adj n (bfsLoop adj fuel st) ∧
      (∀ k d, List.lookup k st.seen = some d →
        List.lookup k (bfsLoop adj fuel st).seen = some d) ∧
      (bfsMeasure n st ≤ fuel → (bfsLoop adj fuel st).queue = []) := by
  intro fuel
  induction fuel with
  | zero =>
      intro st hinv
      refine ⟨hinv, fun k d h => h, fun hm => ?_⟩
      have hqz : st.queue.length = 0 := by
        unfold bfsMeasure at hm
        omega
      exact List.length_eq_zero.mp hqz
  | succ fuel ih =>
      intro st hinv
      obtain ⟨seen, queue, removed⟩ := st
      obtain ⟨h1, h2, h3, h4, h5⟩ := hinv
      cases queue with
      | nil =>
          exact ⟨⟨h1, h2, h3, h4, h5⟩, fun k d h => h, fun _ => rfl⟩
      | cons p rest =>
          rcases p with ⟨node, gen⟩
          obtain ⟨dn, hdn, hb1, hb2⟩ := h3 (node, gen) (by simp)
          have hnoden : node < n := h1 _ (lookup_mem hdn)
          have hrest3 : QueueConsistent (⟨seen, rest, removed⟩ : BfsState) := by
            intro q hqm
            exact h3 q (List.mem_cons_of_mem _ hqm)
          have hrest5 : DecidedExcept adj (⟨seen, rest, removed⟩ : BfsState) node := by
            intro u d hu hne
            rcases h5 u d hu with hque | hproc
            · rcases hque with ⟨g, hg⟩
              rcases List.mem_cons.mp hg with heq | hg
              · exact absurd (congrArg Prod.fst heq) hne
              · exact Or.inl ⟨g, hg⟩
            · exact Or.inr hproc
          obtain ⟨f1, f2, f3, f4, f5, fstab, _, _, fproc, fmeas⟩ :=
            bfsFold_spec adj n node gen dn hb1 hb2 (adj node) ⟨seen, rest, removed⟩
              (hadj node hnoden) h1 h2 hrest3 h4 hrest5 hdn
          rw [← bfsProcessNode_eq] at f1 f2 f3 f4 f5 fstab fproc fmeas
          have hdecided : DecidedInv adj
              (bfsProcessNode adj node gen ⟨seen, rest, removed⟩) := by
            intro u d hu
            by_cases hune : u = node
            · subst hune
              have hstabn := fstab _ _ hdn
              rw [hu] at hstabn
              rw [show d = dn from Option.some.inj hstabn] at hu ⊢
              exact Or.inr fun w hw => fproc w hw
            · exact f5 u d hu hune
          have hinv2 : BfsInv adj n (bfsProcessNode adj node gen ⟨seen, rest, removed⟩) :=
            ⟨f1, f2, f3, f4, hdecided⟩
          obtain ⟨g1, g2, g3⟩ := ih _ hinv2
          refine ⟨g1, ?_, ?_⟩
          · intro k d h
            exact g2 _ _ (fstab _ _ h)
          · intro hm
            apply g3
            have hfm : bfsMeasure n (bfsProcessNode adj node gen ⟨seen, rest, removed⟩) ≤
                bfsMeasure n (⟨seen, rest, removed⟩ : BfsState) := fmeas
            unfold bfsMeasure at hm hfm ⊢
            dsimp only at hm hfm ⊢
            simp only [List.length_cons] at hm
            omega

theorem bfs_final (adj : Nat → List Nat) (n start : Nat) (hstart : start < n)
    (hadj : ∀ u < n, ∀ v ∈ adj u, v < n) :
    BfsInv adj n (compute_reduced_graph_and_depth_map adj n start) ∧
    (compute_reduced_graph_and_depth_map adj n start).queue = [] ∧
    List.lookup start (compute_reduced_graph_and_depth_map adj n start).seen = some 0 := by
  have hinit : BfsInv adj n
      { seen := [(start, 0)], queue := [(start, 0)], removed := [] } := by
    refine ⟨?_, ?_, ?_, ?_, ?_⟩
    · intro p hp
      rcases List.mem_singleton.mp hp with rfl
      exact hstart
    · simp [SeenNodup]
    · intro p hp
      rcases List.mem_singleton.mp hp with rfl
      exact ⟨0, by rw [lookup_cons', if_pos rfl], by omega, by omega⟩
    · intro e he
      simp at he
    · intro u d hu
      rw [lookup_cons'] at hu
      split at hu
      · cases hu
        exact Or.inl ⟨0, by simp [show u = start from by assumption]⟩
      · simp [List.lookup] at hu
  obtain ⟨g1, g2, g3⟩ := bfsLoop_spec adj n hadj (n + 1)
    { seen := [(start, 0)], queue := [(start, 0)], removed := [] } hinit
  refine ⟨g1, ?_, ?_⟩
  · apply g3
    unfold bfsMeasure
    simp only [List.length_singleton]
    omega
  · exact g2 start 0 (by rw [lookup_cons', if_pos rfl])

theorem bfs_decided (adj : Nat → List Nat) (n start : Nat) (hstart : start < n)
    (hadj : ∀ u < n, ∀ v ∈ adj u, v < n) :
    ∀ u d, List.lookup u (compute_reduced_graph_and_depth_map adj n start).seen = some d →
      ∀ v ∈ adj u, ∃ dv,
        List.lookup v (compute_reduced_graph_and_depth_map adj n start).seen = some dv ∧
        ((u, v) ∈ (compute_reduced_graph_and_depth_map adj n start).removed ∨ d ≤ dv) := by
  obtain ⟨⟨_, _, _, _, hdec⟩, hq, _⟩ := bfs_final adj n start hstart hadj
  intro u d hu v hv
  rcases hdec u d hu with ⟨g, hg⟩ | hproc
  · rw [hq] at hg
    simp at hg
  · exact hproc v hv

theorem bfs_reach_seen (adj : Nat → List Nat) (n start : Nat) (hstart : start < n)
    (hadj : ∀ u < n, ∀ v ∈ adj u, v < n) :
    ∀ v, Reach adj start v → ∃ d,
      List.lookup v (compute_reduced_graph_and_depth_map adj n start).seen = some d := by
  intro v hreach
  induction hreach with
  | refl => exact ⟨0, (bfs_final adj n start hstart hadj).2.2⟩
  | tail hr hw ih =>
      rcases ih with ⟨d, hd⟩
      rcases bfs_decided adj n start hstart hadj _ d hd _ hw with ⟨dv, hdv, _⟩
      exact ⟨dv, hdv⟩


/-- C4 (amended): every edge the BFS removes to form the reduced graph
runs between recorded nodes with `depth(source) ≥ depth(destination)` —
the inequality is not strict (see the counterexample), and the reduced
graph need not be acyclic. -/
theorem removed_edges_depth_nonincreasing (adj : Nat → List Nat) (n start : Nat)
    (hstart : start < n) (hadj : ∀ u < n, ∀ v ∈ adj u, v < n) :
    ∀ e ∈ (compute_reduced_graph_and_depth_map adj n start).removed,
      ∃ du dv,
        List.lookup e.1 (compute_reduced_graph_and_depth_map adj n start).seen = some du ∧
        List.lookup e.2 (compute_reduced_graph_and_depth_map adj n start).seen = some dv ∧
        dv ≤ du := by
  obtain ⟨⟨_, _, _, hrem, _⟩, _, _⟩ := bfs_final adj n start hstart hadj
  exact hrem

/-- Witness for the amended C4 on the diamond graph. -/
theorem removed_edges_depth_nonincreasing_witness :
    ∃ du dv,
      List.lookup 1 (compute_reduced_graph_and_depth_map
        (fun u => if u = 0 then [1, 2] else if u = 1 then [2] else []) 3 0).seen = some du ∧
      List.lookup 2 (compute_reduced_graph_and_depth_map
        (fun u => if u = 0 then [1, 2] else if u = 1 then [2] else []) 3 0).seen = some dv ∧
      dv ≤ du := by
  exact removed_edges_depth_nonincreasing
    (fun u => if u = 0 then [1, 2] else if u = 1 then [2] else []) 3 0
    (by norm_num) (by decide) (1, 2) (by decide)


theorem insertEdgeAbsent_mem {e x : Nat × Nat} {l : List (Nat × Nat)}
    (h : e ∈ insertEdgeAbsent x l) : e = x ∨ e ∈ l := by
  unfold insertEdgeAbsent at h
  split at h
  · exact Or.inr h
  · rcases List.mem_append.mp h with h | h
    · exact Or.inr h
    · exact Or.inl (List.mem_singleton.mp h)

theorem edge_check_fold_valid (n : Nat) (mk : Nat → Nat × Nat) :
    ∀ (l : List Nat) (es0 es : List (Nat × Nat)),
      (∀ e ∈ es0, e.1 < n ∧ e.2 < n) →
      (∀ p, p < n → (mk p).1 < n ∧ (mk p).2 < n) →
      l.foldlM (fun es p => if p < n then some (insertEdgeAbsent (mk p) es) else none)
          es0 = some es →
      ∀ e ∈ es, e.1 < n ∧ e.2 < n := by
  intro l
  induction l with
  | nil =>
      intro es0 es h0 _ hes
      cases hes
      exact h0
  | cons p t ih =>
      intro es0 es h0 hmk hes
      rw [List.foldlM_cons] at hes
      by_cases hp : p < n
      · rw [if_pos hp] at hes
        simp only [Option.bind_eq_bind, Option.some_bind] at hes
        refine ih _ es ?_ hmk hes
        intro e he
        rcases insertEdgeAbsent_mem he with rfl | he
        · exact hmk p hp
        · exact h0 e he
      · rw [if_neg hp] at hes
        simp at hes

theorem compute_graph_spec {bbm : BasicBlockManager} {gd : GraphData}
    (h : compute_graph bbm = some gd) :
    gd.n = bbm.blocks.length ∧ ∀ e ∈ gd.edges, e.1 < gd.n ∧ e.2 < gd.n := by
  unfold compute_graph at h
  dsimp only at h
  cases hfold : (List.range bbm.blocks.length).foldlM
      (fun es idx => do
        let bb ← bbm.blocks.get? idx
        let es ← bb.parents.foldlM
          (fun es p =>
            if p < bbm.blocks.length then some (insertEdgeAbsent (p, idx) es) else none) es
        bb.exits.foldlM
          (fun es e =>
            if e < bbm.blocks.length then some (insertEdgeAbsent (idx, e) es) else none) es)
      [] with
  | none => rw [hfold] at h; simp at h
  | some es =>
      rw [hfold] at h
      simp only [Option.bind_eq_bind, Option.some_bind, Option.pure_def,
        Option.some.injEq] at h
      subst h
      refine ⟨rfl, ?_⟩
      have main : ∀ (l : List Nat) (es0 es1 : List (Nat × Nat)),
          (∀ e ∈ es0, e.1 < bbm.blocks.length ∧ e.2 < bbm.blocks.length) →
          (∀ i ∈ l, i < bbm.blocks.length) →
          l.foldlM (fun es idx => do
            let bb ← bbm.blocks.get? idx
            let es ← bb.parents.foldlM
              (fun es p =>
                if p < bbm.blocks.length then some (insertEdgeAbsent (p, idx) es) else none) es
            bb.exits.foldlM
              (fun es e =>
                if e < bbm.blocks.length then some (insertEdgeAbsent (idx, e) es) else none)
              es) es0 = some es1 →
          ∀ e ∈ es1, e.1 < bbm.blocks.length ∧ e.2 < bbm.blocks.length := by
        intro l
        induction l with
        | nil =>
            intro es0 es1 h0 _ heq
            cases heq
            exact h0
        | cons i t ih =>
            intro es0 es1 h0 hl heq
            rw [List.foldlM_cons] at heq
            cases hbb : bbm.blocks.get? i with
            | none => rw [hbb] at heq; simp at heq
            | some bb =>
                rw [hbb] at heq
                simp only [Option.bind_eq_bind, Option.some_bind] at heq
                cases hpar : bb.parents.foldlM
                    (fun es p =>
                      if p < bbm.blocks.length then some (insertEdgeAbsent (p, i) es)
                      else none) es0 with
                | none => rw [hpar] at heq; simp at heq
                | some es2 =>
                    rw [hpar] at heq
                    simp only [Option.bind_eq_bind, Option.some_bind] at heq
                    cases hex : bb.exits.foldlM
                        (fun es e =>
                          if e < bbm.blocks.length then some (insertEdgeAbsent (i, e) es)
                          else none) es2 with
                    | none => rw [hex] at heq; simp at heq
                    | some es3 =>
                        rw [hex] at heq
                        have hi : i < bbm.blocks.length := hl i (by simp)
                        have h2 : ∀ e ∈ es2, e.1 < bbm.blocks.length ∧
                            e.2 < bbm.blocks.length :=
                          edge_check_fold_valid bbm.blocks.length (fun p => (p, i))
                            bb.parents es0 es2 h0 (fun p hp => ⟨hp, hi⟩) hpar
                        have h3 : ∀ e ∈ es3, e.1 < bbm.blocks.length ∧
                            e.2 < bbm.blocks.length :=
                          edge_check_fold_valid bbm.blocks.length (fun p => (i, p))
                            bb.exits es2 es3 h2 (fun p hp => ⟨hi, hp⟩) hex
                        exact ih es3 es1 h3 (fun j hj => hl j (by simp [hj])) heq
      exact main (List.range bbm.blocks.length) [] es (by simp)
        (fun i hi => List.mem_range.mp hi) hfold

theorem GraphData_adj_valid {bbm : BasicBlockManager} {gd : GraphData}
    (h : compute_graph bbm = some gd) :
    ∀ u, ∀ v ∈ gd.adj u, v < gd.n := by
  intro u v hv
  unfold GraphData.adj at hv
  rw [List.mem_reverse] at hv
  rcases List.mem_map.mp hv with ⟨e, he, rfl⟩
  exact ((compute_graph_spec h).2 e (List.mem_filter.mp he).1).2

theorem graphEdges_mem {adj : Nat → List Nat} {n : Nat} {e : Nat × Nat}
    (h : e ∈ graphEdges adj n) : e.1 < n ∧ e.2 ∈ adj e.1 := by
  unfold graphEdges at h
  rcases List.mem_flatMap.mp h with ⟨u, hu, hv⟩
  rcases List.mem_map.mp hv with ⟨w, hw, heq⟩
  subst heq
  exact ⟨List.mem_range.mp hu, hw⟩

theorem foldlM_keep {α β : Type} {l : List α} {f : β → α → Option β} {b : β}
    (h : ∀ a ∈ l, f b a = some b) : l.foldlM f b = some b := by
  induction l with
  | nil => rfl
  | cons a t ih =>
      rw [List.foldlM_cons, h a (by simp)]
      simp only [Option.bind_eq_bind, Option.some_bind]
      exact ih fun x hx => h x (by simp [hx])

theorem traverseOpt_const {α : Type} (f : Nat → Option α) (c : α) :
    ∀ (l : List Nat), (∀ x ∈ l, f x = some c) →
      traverseOpt f l = some (l.map fun _ => c) := by
  intro l
  induction l with
  | nil => intro _; rfl
  | cons x t ih =>
      intro h
      rw [traverseOpt, h x (by simp), ih fun y hy => h y (by simp [hy])]
      rfl


/-- Under full reachability every DFS back-edge-target computation
returns the empty set: every surviving (reduced) edge goes from depth
`du` to depth `dv ≥ du`. -/
theorem computeBackEdgeTargets_empty (adj : Nat → List Nat) (n : Nat)
    (hn : 0 < n) (hadj : ∀ u < n, ∀ v ∈ adj u, v < n)
    (hreach : ∀ b < n, Reach adj 0 b) (x : Nat) :
    computeBackEdgeTargets adj n 0 x = some [] := by
  unfold computeBackEdgeTargets
  apply foldlM_keep
  intro e he
  rcases List.mem_filter.mp he with ⟨hemem, _⟩
  have hmem := graphEdges_mem hemem
  rcases hmem with ⟨h1, h2⟩
  have h2' : e.2 ∈ adj e.1 := (List.mem_filter.mp h2).1
  obtain ⟨du, hdu⟩ := bfs_reach_seen adj n 0 hn hadj e.1 (hreach e.1 h1)
  obtain ⟨dv, hdv, hrem⟩ := bfs_decided adj n 0 hn hadj e.1 du hdu e.2 h2'
  have hkept : (e.1, e.2) ∉ (compute_reduced_graph_and_depth_map adj n 0).removed := by
    intro hc
    have := List.mem_filter.mp h2
    rcases this with ⟨_, hdec⟩
    simp only [decide_eq_true_eq] at hdec
    exact hdec hc
  have hle : du ≤ dv := by
    rcases hrem with hc | hle
    · exact absurd hc hkept
    · exact hle
  rw [hdu, hdv]
  simp only [Option.bind_eq_bind, Option.some_bind]
  rw [if_neg (by omega)]
  rfl


/-- C2: for every context whose blocks are all reachable from the entry
block, the per-node back-edge-target sets computed by the analysis are
all empty (every surviving reduced edge goes to a node of depth not
smaller than its source's depth), and consequently `is_live_in` never
returns `true`: it returns `false` for every register whose lookups
succeed (and panics, `none`, otherwise). -/
theorem reachable_context_live_in_false
    (bbm : BasicBlockManager) (gq : GraphQuery)
    (hgq : mkGraphQuery bbm = some gq)
    (hn : 0 < gq.n)
    (hreach : ∀ b < gq.n, Reach gq.adj 0 b) :
    (∀ x, gq.backEdges x = []) ∧
    (∀ r, is_live_in gq r ≠ some true) ∧
    (∀ r q sd us, List.lookup r gq.defineMap = some q → gq.sdoms q = some sd →
      List.lookup r gq.useMap = some us → is_live_in gq r = some false) := by
  unfold mkGraphQuery at hgq
  cases hgd : compute_graph bbm with
  | none => rw [hgd] at hgq; simp at hgq
  | some gd =>
      rw [hgd] at hgq
      simp only [Option.bind_eq_bind, Option.some_bind] at hgq
      cases hbes : traverseOpt (fun x => computeBackEdgeTargets gd.adj gd.n 0 x)
          (List.range gd.n) with
      | none => rw [hbes] at hgq; simp at hgq
      | some bes =>
          rw [hbes] at hgq
          simp only [Option.bind_eq_bind, Option.some_bind] at hgq
          cases hmaps : mkUseDefMaps bbm.blocks with
          | none => rw [hmaps] at hgq; simp at hgq
          | some maps =>
              rw [hmaps] at hgq
              simp only [Option.bind_eq_bind, Option.some_bind, Option.pure_def,
                Option.some.injEq] at hgq
              subst hgq
              have hadjv : ∀ u < gd.n, ∀ v ∈ gd.adj u, v < gd.n :=
                fun u _ v hv => GraphData_adj_valid hgd u v hv
              have hbempty : ∀ x, computeBackEdgeTargets gd.adj gd.n 0 x = some [] :=
                computeBackEdgeTargets_empty gd.adj gd.n hn hadjv hreach
              have hbes2 : bes = (List.range gd.n).map fun _ => ([] : List Nat) := by
                have := traverseOpt_const
                  (fun x => computeBackEdgeTargets gd.adj gd.n 0 x) ([] : List Nat)
                  (List.range gd.n) (fun x _ => hbempty x)
                rw [hbes] at this
                exact Option.some.inj this
              have hbe : ∀ x, ((bes.get? x).getD [] : List Nat) = [] := by
                intro x
                subst hbes2
                cases hx : (List.range gd.n |>.map fun _ => ([] : List Nat)).get? x with
                | none => simp
                | some l =>
                    rcases List.get?_eq_some.mp hx with ⟨hlt, hval⟩
                    simp only [Option.getD_some]
                    rw [← hval]
                    simp
              refine ⟨hbe, ?_, ?_⟩
              · intro r
                unfold is_live_in
                dsimp only
                cases List.lookup r maps.2 with
                | none => simp
                | some ni =>
                    simp only [Option.bind_eq_bind, Option.some_bind]
                    cases strictDominators gd.adj gd.n 0 ni with
                    | none => simp
                    | some sd =>
                        simp only [Option.some_bind]
                        cases List.lookup r maps.1 with
                        | none => simp
                        | some us =>
                            simp only [Option.some_bind]
                            rw [hbe ni]
                            simp
              · intro r q sd us hdef hsd huse
                unfold is_live_in
                dsimp only at hdef hsd huse ⊢
                rw [hdef]
                simp only [Option.bind_eq_bind, Option.some_bind]
                rw [hsd]
                simp only [Option.some_bind]
                rw [huse]
                simp only [Option.some_bind]
                rw [hbe q]
                simp


/-- Witness for C2 on the one-block context. -/
theorem reachable_context_live_in_false_witness :
    ∃ gq, mkGraphQuery singleBlockBbm = some gq ∧ gq.backEdges 0 = [] ∧
      is_live_in gq 3 ≠ some true := by
  cases hg : mkGraphQuery singleBlockBbm with
  | none =>
      have hs : (mkGraphQuery singleBlockBbm).isSome = true := rfl
      rw [hg] at hs
      simp at hs
  | some gq =>
      have hn : gq.n = 1 := by
        have h1 : (mkGraphQuery singleBlockBbm).map GraphQuery.n = some 1 := rfl
        rw [hg] at h1
        exact Option.some.inj h1
      have h := reachable_context_live_in_false singleBlockBbm gq hg (by omega)
        (by
          intro b hb
          rw [hn] at hb
          have hb0 : b = 0 := by omega
          subst hb0
          exact Reach.refl 0)
      exact ⟨gq, rfl, h.1 0, h.2.1 3⟩


theorem msgs_fold_spec :
    ∀ (msgs : List (Nat × Nat)) (bs bs' : List BasicBlock),
      msgs.foldlM
        (fun bs m => do
          let bb ← bs.get? m.2
          pure (bs.set m.2 { bb with parents := bb.parents ++ [m.1] })) bs = some bs' →
      bs'.length = bs.length ∧
      (∀ i, (bs'.get? i).map BasicBlock.exits = (bs.get? i).map BasicBlock.exits) ∧
      (∀ i bb p, bs.get? i = some bb → p ∈ bb.parents →
        ∃ bb', bs'.get? i = some bb' ∧ p ∈ bb'.parents) ∧
      (∀ m ∈ msgs, ∃ bb', bs'.get? m.2 = some bb' ∧ m.1 ∈ bb'.parents) := by
  intro msgs
  induction msgs with
  | nil =>
      intro bs bs' h
      cases h
      exact ⟨rfl, fun i => rfl, fun i bb p h1 h2 => ⟨bb, h1, h2⟩, by simp⟩
  | cons m t ih =>
      intro bs bs' h
      rw [List.foldlM_cons] at h
      cases hbb : bs.get? m.2 with
      | none => rw [hbb] at h; simp at h
      | some bb =>
          rw [hbb] at h
          simp only [Option.bind_eq_bind, Option.some_bind, Option.pure_def] at h
          set bs1 := bs.set m.2 { bb with parents := bb.parents ++ [m.1] } with hbs1
          obtain ⟨l1, e1, p1, m1⟩ := ih bs1 bs' h
          have hlt : m.2 < bs.length := by
            by_contra hge
            rw [List.get?_eq_getElem?, List.getElem?_eq_none (by omega)] at hbb
            exact absurd hbb (by simp)
          have hget1 : ∀ i, i ≠ m.2 → bs1.get? i = bs.get? i := by
            intro i hi
            have hne : m.2 ≠ i := Ne.symm hi
            rw [hbs1]
            simp [List.get?_eq_getElem?, List.getElem?_set, hne]
          have hget2 : bs1.get? m.2 = some { bb with parents := bb.parents ++ [m.1] } := by
            rw [hbs1]
            simp [List.get?_eq_getElem?, List.getElem?_set, hlt]
          refine ⟨by rw [l1, hbs1]; simp, ?_, ?_, ?_⟩
          · intro i
            rw [e1 i]
            by_cases hi : i = m.2
            · subst hi
              rw [hget2, hbb]
              rfl
            · rw [hget1 i hi]
          · intro i bb0 p h1 h2
            by_cases hi : i = m.2
            · subst hi
              rw [hbb] at h1
              cases h1
              exact p1 m.2 _ p hget2 (by simp [h2])
            · exact p1 i bb0 p (by rw [hget1 i hi]; exact h1) h2
          · intro m' hm'
            rcases List.mem_cons.mp hm' with rfl | hm'
            · exact p1 m'.2 _ m'.1 hget2 (by simp)
            · exact m1 m' hm'

theorem processMessages_spec {bbm bbm' : BasicBlockManager}
    (h : processMessages bbm = some bbm') :
    bbm'.msgs = [] ∧
    bbm'.blocks.length = bbm.blocks.length ∧
    (∀ i, (bbm'.blocks.get? i).map BasicBlock.exits =
      (bbm.blocks.get? i).map BasicBlock.exits) ∧
    (∀ i bb p, bbm.blocks.get? i = some bb → p ∈ bb.parents →
      ∃ bb', bbm'.blocks.get? i = some bb' ∧ p ∈ bb'.parents) ∧
    (∀ m ∈ bbm.msgs, ∃ bb', bbm'.blocks.get? m.2 = some bb' ∧ m.1 ∈ bb'.parents) := by
  unfold processMessages at h
  cases hf : bbm.msgs.foldlM
      (fun bs m => do
        let bb ← bs.get? m.2
        pure (bs.set m.2 { bb with parents := bb.parents ++ [m.1] })) bbm.blocks with
  | none => rw [hf] at h; simp at h
  | some bs' =>
      rw [hf] at h
      simp only [Option.bind_eq_bind, Option.some_bind, Option.pure_def,
        Option.some.injEq] at h
      obtain ⟨l1, e1, p1, m1⟩ := msgs_fold_spec bbm.msgs bbm.blocks bs' hf
      subst h
      exact ⟨rfl, l1, e1, p1, m1⟩

theorem processMessages_mirror {bbm bbm' : BasicBlockManager}
    (h : processMessages bbm = some bbm') (hinv : MirrorInv bbm) :
    MirrorInv bbm' ∧ bbm'.msgs = [] := by
  obtain ⟨hm, hl, he, hp, hcons⟩ := processMessages_spec h
  refine ⟨?_, hm⟩
  intro b bb' hb s hs
  have hex := he b
  rw [hb] at hex
  cases hb0 : bbm.blocks.get? b with
  | none => rw [hb0] at hex; simp at hex
  | some bb0 =>
      rw [hb0] at hex
      have hsx : s ∈ bb0.exits := by
        have : bb'.exits = bb0.exits := by
          simpa using hex
        rw [← this]
        exact hs
      rcases hinv b bb0 hb0 s hsx with hmsg | ⟨bbS, hbS, hpar⟩
      · exact Or.inr (hcons (b, s) hmsg)
      · exact Or.inr (hp s bbS b hbS hpar)


theorem withBlock_spec {bbm bbm' : BasicBlockManager} {b : Nat}
    {f : BasicBlock → BasicBlock × List (Nat × Nat)}
    (h : withBlock bbm b f = some bbm') :
    ∃ bb, bbm.blocks.get? b = some bb ∧
      bbm'.blocks = bbm.blocks.set b (f bb).1 ∧
      bbm'.msgs = bbm.msgs ++ (f bb).2 := by
  unfold withBlock at h
  cases hbb : bbm.blocks.get? b with
  | none => rw [hbb] at h; simp at h
  | some bb =>
      rw [hbb] at h
      simp only [Option.bind_eq_bind, Option.some_bind, Option.pure_def,
        Option.some.injEq] at h
      exact ⟨bb, rfl, by rw [← h], by rw [← h]⟩

theorem withBlock_mirror {bbm bbm' : BasicBlockManager} {b : Nat}
    {f : BasicBlock → BasicBlock × List (Nat × Nat)}
    (h : withBlock bbm b f = some bbm') (hinv : MirrorInv bbm)
    (hexits : ∀ bb, (f bb).1.exits = bb.exits ∨
      ∃ t, (f bb).1.exits = bb.exits ++ [t] ∧ (b, t) ∈ (f bb).2)
    (hparents : ∀ bb, ∀ p ∈ bb.parents, p ∈ (f bb).1.parents) :
    MirrorInv bbm' := by
  obtain ⟨bb, hbb, hblocks, hmsgs⟩ := withBlock_spec h
  have hlt : b < bbm.blocks.length := by
    by_contra hge
    rw [List.get?_eq_getElem?, List.getElem?_eq_none (by omega)] at hbb
    exact absurd hbb (by simp)
  have hgetb : bbm'.blocks.get? b = some (f bb).1 := by
    rw [hblocks]
    simp [List.get?_eq_getElem?, List.getElem?_set, hlt]
  have hgetne : ∀ i, i ≠ b → bbm'.blocks.get? i = bbm.blocks.get? i := by
    intro i hi
    have hne : b ≠ i := Ne.symm hi
    rw [hblocks]
    simp [List.get?_eq_getElem?, List.getElem?_set, hne]
  have hwitness : ∀ b' s bbS, bbm.blocks.get? s = some bbS → b' ∈ bbS.parents →
      ∃ bbS', bbm'.blocks.get? s = some bbS' ∧ b' ∈ bbS'.parents := by
    intro b' s bbS hbS hpar
    by_cases hsb : s = b
    · subst hsb
      rw [hbb] at hbS
      cases hbS
      exact ⟨(f bb).1, hgetb, hparents bb b' hpar⟩
    · exact ⟨bbS, by rw [hgetne s hsb]; exact hbS, hpar⟩
  intro b' bb' hb' s hs
  by_cases hb : b' = b
  · subst hb
    rw [hgetb] at hb'
    cases hb'
    rcases hexits bb with hsame | ⟨t, happ, hmem⟩
    · rw [hsame] at hs
      rcases hinv b' bb hbb s hs with hmsg | ⟨bbS, hbS, hpar⟩
      · exact Or.inl (by rw [hmsgs]; exact List.mem_append_left _ hmsg)
      · exact Or.inr (hwitness b' s bbS hbS hpar)
    · rw [happ] at hs
      rcases List.mem_append.mp hs with hs | hs
      · rcases hinv b' bb hbb s hs with hmsg | ⟨bbS, hbS, hpar⟩
        · exact Or.inl (by rw [hmsgs]; exact List.mem_append_left _ hmsg)
        · exact Or.inr (hwitness b' s bbS hbS hpar)
      · rcases List.mem_singleton.mp hs with rfl
        exact Or.inl (by rw [hmsgs]; exact List.mem_append_right _ hmem)
  · rw [hgetne b' hb] at hb'
    rcases hinv b' bb' hb' s hs with hmsg | ⟨bbS, hbS, hpar⟩
    · exact Or.inl (by rw [hmsgs]; exact List.mem_append_left _ hmsg)
    · exact Or.inr (hwitness b' s bbS hbS hpar)

theorem append_block_mirror {bbm : BasicBlockManager}
    (hinv : MirrorInv bbm) :
    MirrorInv { bbm with
      blocks := bbm.blocks ++ [{ parents := [], exits := [], code := [] }] } := by
  intro b bb hb s hs
  by_cases hlt : b < bbm.blocks.length
  · rw [List.get?_eq_getElem?, List.getElem?_append_left hlt,
      ← List.get?_eq_getElem?] at hb
    rcases hinv b bb hb s hs with hmsg | ⟨bbS, hbS, hpar⟩
    · exact Or.inl hmsg
    · have hslt : s < bbm.blocks.length := by
        by_contra hge
        rw [List.get?_eq_getElem?, List.getElem?_eq_none (by omega)] at hbS
        exact absurd hbS (by simp)
      refine Or.inr ⟨bbS, ?_, hpar⟩
      rw [List.get?_eq_getElem?, List.getElem?_append_left hslt, ← List.get?_eq_getElem?]
      exact hbS
  · have hb' : b = bbm.blocks.length := by
      by_contra hne
      have : bbm.blocks.length + 1 ≤ b := by omega
      rw [List.get?_eq_getElem?, List.getElem?_eq_none (by simp; omega)] at hb
      exact absurd hb (by simp)
    subst hb'
    rw [List.get?_eq_getElem?] at hb
    rw [List.getElem?_append_right (by omega)] at hb
    simp at hb
    subst hb
    simp at hs

theorem option_bind_some {α β : Type} {o : Option α} {g : α → Option β} {b : β}
    (h : o.bind g = some b) : ∃ a, o = some a ∧ g a = some b := by
  cases o with
  | none => simp at h
  | some a => exact ⟨a, rfl, h⟩

theorem stepOp_mirror {op : COp} {st st' : Context × Nat}
    (h : stepOp op st = some st') (hinv : MirrorInv st.1.basicBlocks) :
    MirrorInv st'.1.basicBlocks := by
  cases op with
  | newBlock =>
      simp only [stepOp, new_basic_block, Option.bind_eq_bind, Option.pure_def] at h
      rw [Option.bind_assoc] at h
      obtain ⟨bbm1, hpm, hrest⟩ := option_bind_some h
      simp only [Option.bind_eq_bind, Option.some_bind, Option.some.injEq] at hrest
      obtain ⟨hinv1, _⟩ := processMessages_mirror hpm hinv
      rw [← hrest]
      exact append_block_mirror hinv1
  | addParent b p =>
      simp only [stepOp, Option.bind_eq_bind, Option.pure_def] at h
      obtain ⟨bbm1, hwb, hrest⟩ := option_bind_some h
      simp only [Option.some.injEq] at hrest
      rw [← hrest]
      exact withBlock_mirror hwb hinv (fun bb => Or.inl rfl)
        (fun bb q hq => List.mem_append_left _ hq)
  | jump b t =>
      simp only [stepOp, Option.bind_eq_bind, Option.pure_def] at h
      obtain ⟨bbm1, hwb, hrest⟩ := option_bind_some h
      simp only [Option.some.injEq] at hrest
      rw [← hrest]
      exact withBlock_mirror hwb hinv
        (fun bb => Or.inr ⟨t, rfl, by simp⟩) (fun bb q hq => hq)
  | add b v1 v2 =>
      simp only [stepOp, Option.bind_eq_bind, Option.pure_def] at h
      obtain ⟨bbm1, hwb, hrest⟩ := option_bind_some h
      simp only [Option.some.injEq] at hrest
      rw [← hrest]
      exact withBlock_mirror hwb hinv (fun bb => Or.inl rfl) (fun bb q hq => hq)
  | subtract b v1 v2 =>
      simp only [stepOp, Option.bind_eq_bind, Option.pure_def] at h
      obtain ⟨bbm1, hwb, hrest⟩ := option_bind_some h
      simp only [Option.some.injEq] at hrest
      rw [← hrest]
      exact withBlock_mirror hwb hinv (fun bb => Or.inl rfl) (fun bb q hq => hq)
  | pushInstruction b i =>
      simp only [stepOp, Option.bind_eq_bind, Option.pure_def] at h
      obtain ⟨bbm1, hwb, hrest⟩ := option_bind_some h
      simp only [Option.some.injEq] at hrest
      rw [← hrest]
      exact withBlock_mirror hwb hinv (fun bb => Or.inl rfl) (fun bb q hq => hq)
  | finalizeOp =>
      simp only [stepOp, BasicBlockManager.finalize, Option.bind_eq_bind,
        Option.pure_def] at h
      obtain ⟨bbm1, hpm, hrest⟩ := option_bind_some h
      obtain ⟨gd, hcg, hrest2⟩ := option_bind_some hrest
      simp only [Option.some.injEq] at hrest2
      obtain ⟨hinv1, _⟩ := processMessages_mirror hpm hinv
      rw [← hrest2]
      exact hinv1


theorem runOpsFrom_mirror :
    ∀ (ops : List COp) (st st' : Context × Nat),
      runOpsFrom st ops = some st' → MirrorInv st.1.basicBlocks →
      MirrorInv st'.1.basicBlocks := by
  intro ops
  induction ops with
  | nil =>
      intro st st' h hinv
      cases h
      exact hinv
  | cons op t ih =>
      intro st st' h hinv
      unfold runOpsFrom at h
      rw [List.foldlM_cons] at h
      obtain ⟨st1, hstep, hrest⟩ := option_bind_some h
      exact ih st1 st' hrest (stepOp_mirror hstep hinv)

/-- C6 (amended): after finalize, every successor edge recorded in a
block's `exits` has its mirror entry in the successor's `parents`.  The
converse fails (see the counterexample): `add_parent` records a parent
without a matching exit. -/
theorem exits_mirrored_in_parents (ops : List COp) (ctx : Context) (lr : Nat)
    (h : runOps (ops ++ [.finalizeOp]) = some (ctx, lr)) :
    ∀ b bb, ctx.basicBlocks.blocks.get? b = some bb → ∀ s ∈ bb.exits,
      ∃ bbS, ctx.basicBlocks.blocks.get? s = some bbS ∧ b ∈ bbS.parents := by
  unfold runOps runOpsFrom at h
  rw [List.foldlM_append] at h
  obtain ⟨st0, hops, hfin⟩ := option_bind_some h
  have hinv0 : MirrorInv st0.1.basicBlocks :=
    runOpsFrom_mirror ops (Context.new, 0) st0 hops (by
      intro b bb hb s hs
      simp [Context.new] at hb)
  rw [List.foldlM_cons] at hfin
  obtain ⟨st1, hstep, hrest⟩ := option_bind_some hfin
  cases hrest
  simp only [stepOp, BasicBlockManager.finalize, Option.bind_eq_bind,
    Option.pure_def] at hstep
  obtain ⟨bbm1, hpm, hrest2⟩ := option_bind_some hstep
  obtain ⟨gd, hcg, hrest3⟩ := option_bind_some hrest2
  simp only [Option.some.injEq] at hrest3
  obtain ⟨hinv1, hmsgs⟩ := processMessages_mirror hpm hinv0
  injection hrest3 with hc hl
  have hbbm : ctx.basicBlocks = bbm1 := by rw [← hc]
  rw [hbbm]
  intro b bb hb s hs
  rcases hinv1 b bb hb s hs with hmsg | hw
  · rw [hmsgs] at hmsg
    simp at hmsg
  · exact hw

/-- Witness for the amended C6: a two-block script whose entry jumps to
block 1. -/
theorem exits_mirrored_in_parents_witness :
    ∃ bbS,
      (((runOps ([.newBlock, .newBlock, .jump 0 1] ++ [.finalizeOp])).map
          (fun st => st.1)).bind fun ctx => ctx.basicBlocks.blocks.get? 1) = some bbS ∧
      0 ∈ bbS.parents := by
  cases hrun : runOps ([.newBlock, .newBlock, .jump 0 1] ++ [.finalizeOp]) with
  | none =>
      have : (runOps ([.newBlock, .newBlock, .jump 0 1] ++ [.finalizeOp])).isSome = true :=
        rfl
      rw [hrun] at this
      simp at this
  | some st =>
      have hget : st.1.basicBlocks.blocks.get? 0 =
          some { parents := [], exits := [1], code := [.Jump 1] } := by
        have h0 : (runOps ([.newBlock, .newBlock, .jump 0 1] ++ [.finalizeOp])).bind
            (fun st => st.1.basicBlocks.blocks.get? 0) =
            some { parents := [], exits := [1], code := [.Jump 1] } := rfl
        rw [hrun] at h0
        exact h0
      obtain ⟨bbS, hbS, hmem⟩ :=
        exits_mirrored_in_parents [.newBlock, .newBlock, .jump 0 1] st.1 st.2
          (by rw [hrun]) 0 _ hget 1 (by simp)
      refine ⟨bbS, ?_, hmem⟩
      simpa using hbS

end ShibaJit

namespace ShibaJit

theorem assocUpdate_lookup_self {k : Nat} {f : List Nat → List Nat} :
    ∀ {um : List (Nat × List Nat)},
      List.lookup k (assocUpdate k f um) = some (f ((List.lookup k um).getD [])) := by
  intro um
  induction um with
  | nil =>
      rw [show assocUpdate k f [] = [(k, f [])] from rfl, lookup_cons', if_pos rfl]
      rfl
  | cons p t ih =>
      rcases p with ⟨a, b⟩
      unfold assocUpdate
      by_cases hk : k = a
      · rw [if_pos hk, lookup_cons', if_pos hk, lookup_cons', if_pos hk]
        rfl
      · rw [if_neg hk, lookup_cons', if_neg hk, lookup_cons', if_neg hk]
        exact ih

theorem assocUpdate_lookup_ne {r k : Nat} {f : List Nat → List Nat}
    (hne : r ≠ k) :
    ∀ {um : List (Nat × List Nat)},
      List.lookup r (assocUpdate k f um) = List.lookup r um := by
  intro um
  induction um with
  | nil =>
      rw [show assocUpdate k f [] = [(k, f [])] from rfl, lookup_cons', if_neg hne]
  | cons p t ih =>
      rcases p with ⟨a, b⟩
      unfold assocUpdate
      by_cases hk : k = a
      · rw [if_pos hk, lookup_cons', lookup_cons']
        by_cases hr : r = a
        · rw [← hk] at hr
          exact absurd hr hne
        · rw [if_neg hr, if_neg hr]
      · rw [if_neg hk, lookup_cons', lookup_cons']
        by_cases hr : r = a
        · rw [if_pos hr, if_pos hr]
        · rw [if_neg hr, if_neg hr]
          exact ih

theorem assocUpdate_values (P : List Nat → Prop) (k : Nat) (f : List Nat → List Nat)
    (hP : ∀ v, P v → P (f v)) (hnil : P (f [])) :
    ∀ (um : List (Nat × List Nat)), (∀ p ∈ um, P p.2) →
      ∀ p ∈ assocUpdate k f um, P p.2 := by
  intro um
  induction um with
  | nil =>
      intro _ p hp
      rcases List.mem_singleton.mp hp with heq
      rw [heq]
      exact hnil
  | cons q t ih =>
      rcases q with ⟨a, b⟩
      intro hall p hp
      unfold assocUpdate at hp
      by_cases hk : k = a
      · rw [if_pos hk] at hp
        rcases List.mem_cons.mp hp with heq | hp2
        · rw [heq]
          exact hP b (hall (a, b) (by simp))
        · exact hall p (List.mem_cons_of_mem _ hp2)
      · rw [if_neg hk] at hp
        rcases List.mem_cons.mp hp with heq | hp2
        · rw [heq]
          exact hall (a, b) (by simp)
        · exact ih (fun q hq => hall q (List.mem_cons_of_mem _ hq)) p hp2

theorem umfold_lookup_isSome (idx : Nat) :
    ∀ (l : List Nat) (um0 : List (Nat × List Nat)) (r : Nat),
      (r ∈ l ∨ (List.lookup r um0).isSome) →
      (List.lookup r (l.foldl (fun um r' => assocUpdate r' (insertAbsent idx) um) um0)).isSome := by
  intro l
  induction l with
  | nil =>
      intro um0 r h
      rcases h with h | h
      · simp at h
      · simpa using h
  | cons x t ih =>
      intro um0 r h
      rw [List.foldl_cons]
      by_cases hrx : r = x
      · subst hrx
        refine ih _ r (Or.inr ?_)
        rw [assocUpdate_lookup_self]
        simp
      · rcases h with h | h
        · rcases List.mem_cons.mp h with rfl | h
          · exact absurd rfl hrx
          · exact ih _ r (Or.inl h)
        · refine ih _ r (Or.inr ?_)
          rw [assocUpdate_lookup_ne hrx]
          exact h

theorem umfold_values (idx : Nat) :
    ∀ (l : List Nat) (um0 : List (Nat × List Nat)),
      (∀ p ∈ um0, ∀ x ∈ p.2, x = idx) →
      ∀ p ∈ l.foldl (fun um r' => assocUpdate r' (insertAbsent idx) um) um0,
        ∀ x ∈ p.2, x = idx := by
  intro l
  induction l with
  | nil => intro um0 h p hp; exact h p hp
  | cons y t ih =>
      intro um0 h p hp
      rw [List.foldl_cons] at hp
      refine ih _ ?_ p hp
      refine assocUpdate_values (fun v => ∀ x ∈ v, x = idx) y (insertAbsent idx)
        ?_ ?_ um0 h
      · intro v hv x hx
        unfold insertAbsent at hx
        split at hx
        · exact hv x hx
        · rcases List.mem_append.mp hx with hx | hx
          · exact hv x hx
          · exact List.mem_singleton.mp hx
      · intro x hx
        unfold insertAbsent at hx
        simp at hx
        exact hx


theorem chainCode_defs (k : Nat) :
    iter_defined_registers (chainBlock k) = (List.range k).map (· + 1) := by
  unfold iter_defined_registers chainBlock chainCode
  rw [List.flatMap_append]
  have h1 : ((List.range k).map fun i =>
      if i = 0 then IR.Add 1 (.Immediate .U32 0) (.Immediate .U32 1)
      else IR.Add (i + 1) (.Register i) (.Immediate .U32 1)).flatMap irDefinedRegs
      = (List.range k).map (· + 1) := by
    induction k with
    | zero => rfl
    | succ j ih =>
        rw [List.range_succ, List.map_append, List.flatMap_append, ih, List.map_append]
        by_cases hj : j = 0
        · subst hj
          rfl
        · simp [irDefinedRegs, hj]
  rw [h1]
  simp [irUsedRegs, irDefinedRegs, valueRegs]

theorem chainCode_uses (k r : Nat) (h1 : 1 ≤ r) (h2 : r ≤ k) :
    r ∈ iter_used_registers (chainBlock k) := by
  unfold iter_used_registers chainBlock chainCode
  rw [List.flatMap_append]
  by_cases hrk : r = k
  · subst hrk
    refine List.mem_append_right _ ?_
    simp [irUsedRegs, valueRegs]
  · refine List.mem_append_left _ ?_
    rw [List.mem_flatMap]
    refine ⟨IR.Add (r + 1) (.Register r) (.Immediate .U32 1), ?_, ?_⟩
    · rw [List.mem_map]
      refine ⟨r, List.mem_range.mpr (by omega), ?_⟩
      rw [if_neg (by omega)]
    · simp [irUsedRegs, valueRegs]

theorem checkInsert_fold (idx : Nat) :
    ∀ (l : List Nat) (dm0 : List (Nat × Nat)),
      l.Nodup → (∀ r ∈ l, List.lookup r dm0 = none) →
      l.foldlM
        (fun dm r => if (List.lookup r dm).isSome then none else some (dm ++ [(r, idx)]))
        dm0 = some (dm0 ++ l.map fun r => (r, idx)) := by
  intro l
  induction l with
  | nil =>
      intro dm0 _ _
      simp
  | cons r t ih =>
      intro dm0 hnd h0
      rw [List.foldlM_cons]
      rw [h0 r (by simp)]
      simp only [Option.isSome_none, Bool.false_eq_true, if_false,
        Option.bind_eq_bind, Option.some_bind]
      have hrec := ih (dm0 ++ [(r, idx)]) (List.nodup_cons.mp hnd).2 ?_
      · rw [hrec]
        simp
      · intro r' hr'
        have hne : r' ≠ r := by
          intro hc
          subst hc
          exact (List.nodup_cons.mp hnd).1 hr'
        rw [lookup_append_none (h0 r' (by simp [hr'])), lookup_cons', if_neg hne]
        rfl

theorem lookup_map_const {β : Type} (c : β) :
    ∀ (keys : List Nat) (r : Nat),
      List.lookup r (keys.map fun k => (k, c)) = if r ∈ keys then some c else none := by
  intro keys
  induction keys with
  | nil => intro r; simp
  | cons a t ih =>
      intro r
      rw [List.map_cons, lookup_cons']
      by_cases hr : r = a
      · rw [if_pos hr, if_pos (by simp [hr])]
      · rw [if_neg hr, ih r]
        by_cases hrt : r ∈ t
        · rw [if_pos hrt, if_pos (by simp [hrt])]
        · rw [if_neg hrt, if_neg (by simp [hr, hrt])]

theorem mkUseDefMaps_chain (k : Nat) :
    mkUseDefMaps (chainBbm k).blocks =
      some (chainUm k, ((List.range k).map (· + 1)).map fun r => (r, 0)) := by
  unfold mkUseDefMaps
  have hrange : List.range (chainBbm k).blocks.length = [0] := by
    rfl
  rw [hrange, List.foldlM_cons]
  rw [show (chainBbm k).blocks.get? 0 = some (chainBlock k) from rfl]
  simp only [Option.bind_eq_bind, Option.some_bind]
  rw [chainCode_defs k]
  have hnd : ((List.range k).map (· + 1)).Nodup :=
    List.Nodup.map (fun a b hab => by omega) (List.nodup_range k)
  rw [checkInsert_fold 0 ((List.range k).map (· + 1)) [] hnd (fun r _ => rfl)]
  simp only [Option.bind_eq_bind, Option.some_bind, List.nil_append]
  rfl


theorem mkGraphQuery_chain (k : Nat) :
    mkGraphQuery (chainBbm k) = some (chainGq k) := by
  unfold mkGraphQuery
  rw [show compute_graph (chainBbm k) = some { n := 1, edges := [] } from rfl]
  simp only [Option.bind_eq_bind, Option.some_bind]
  rw [show traverseOpt
      (fun x => computeBackEdgeTargets (GraphData.adj { n := 1, edges := [] }) 1 0 x)
      (List.range 1) = some [[]] from rfl]
  simp only [Option.some_bind]
  rw [mkUseDefMaps_chain k]
  simp only [Option.some_bind, Option.pure_def]
  rfl

theorem insertSorted_mem {p : Nat × MachineRegister} {k : Nat} {v : MachineRegister} :
    ∀ {l : List (Nat × MachineRegister)}, p ∈ insertSorted k v l → p = (k, v) ∨ p ∈ l := by
  intro l
  induction l with
  | nil =>
      intro h
      exact Or.inl (List.mem_singleton.mp h)
  | cons q t ih =>
      rcases q with ⟨a, b⟩
      intro h
      unfold insertSorted at h
      split at h
      · rcases List.mem_cons.mp h with heq | h2
        · exact Or.inl heq
        · exact Or.inr h2
      · rcases List.mem_cons.mp h with heq | h2
        · exact Or.inr (by rw [heq]; simp)
        · rcases ih h2 with h3 | h3
          · exact Or.inl h3
          · exact Or.inr (List.mem_cons_of_mem _ h3)

theorem insertSorted_lookup_ne {r k : Nat} {v : MachineRegister} (hne : r ≠ k) :
    ∀ {l : List (Nat × MachineRegister)},
      List.lookup r (insertSorted k v l) = List.lookup r l := by
  intro l
  induction l with
  | nil =>
      rw [show insertSorted k v [] = [(k, v)] from rfl, lookup_cons', if_neg hne]
  | cons q t ih =>
      rcases q with ⟨a, b⟩
      unfold insertSorted
      split
      · rw [lookup_cons', if_neg hne, lookup_cons']
      · rw [lookup_cons', lookup_cons']
        by_cases hr : r = a
        · rw [if_pos hr, if_pos hr]
        · rw [if_neg hr, if_neg hr]
          exact ih

theorem allocateDefs_spec :
    ∀ (defs : List Nat) (cm : List (Nat × MachineRegister))
      (pool : List MachineRegister) (out : List (Nat × MachineRegister)),
      defs.Nodup →
      (∀ r ∈ defs, List.lookup r cm = none ∧ List.lookup r out = none) →
      (defs.length ≤ pool.length →
        ∃ cm', allocateDefs defs cm pool out =
          some (cm', pool.drop defs.length, out ++ defs.zip pool) ∧
          ∀ p ∈ cm', p.1 ∈ defs ∨ p ∈ cm) ∧
      (pool.length < defs.length → allocateDefs defs cm pool out = none) := by
  intro defs
  induction defs with
  | nil =>
      intro cm pool out _ _
      constructor
      · intro _
        exact ⟨cm, by simp [allocateDefs], fun p hp => Or.inr hp⟩
      · intro h
        simp at h
  | cons r t ih =>
      intro cm pool out hnd h0
      cases pool with
      | nil =>
          constructor
          · intro h
            simp at h
          · intro _
            unfold allocateDefs
            rw [List.foldlM_cons]
            rfl
      | cons m rest =>
          have hstep : allocateDefs (r :: t) cm (m :: rest) out =
              allocateDefs t (insertSorted r m cm) rest (out ++ [(r, m)]) := by
            have hc : List.lookup r cm = none := (h0 r (by simp)).1
            have ho : List.lookup r out = none := (h0 r (by simp)).2
            unfold allocateDefs
            rw [List.foldlM_cons]
            dsimp only
            rw [hc, ho]
            simp only [Option.isSome_none, Bool.false_eq_true, if_false,
              Option.bind_eq_bind, Option.some_bind]
          have hnext : ∀ r' ∈ t, List.lookup r' (insertSorted r m cm) = none ∧
              List.lookup r' (out ++ [(r, m)]) = none := by
            intro r' hr'
            have hne : r' ≠ r := by
              intro hc
              subst hc
              exact (List.nodup_cons.mp hnd).1 hr'
            constructor
            · rw [insertSorted_lookup_ne hne]
              exact (h0 r' (by simp [hr'])).1
            · rw [lookup_append_none (h0 r' (by simp [hr'])).2, lookup_cons', if_neg hne]
              rfl
          obtain ⟨ihle, ihgt⟩ := ih (insertSorted r m cm) rest (out ++ [(r, m)])
            (List.nodup_cons.mp hnd).2 hnext
          constructor
          · intro hlen
            simp only [List.length_cons] at hlen
            obtain ⟨cm', heq, hmem⟩ := ihle (by simp at hlen ⊢; omega)
            refine ⟨cm', ?_, ?_⟩
            · rw [hstep, heq]
              simp [List.zip_cons_cons]
            · intro p hp
              rcases hmem p hp with h | h
              · exact Or.inl (by simp [h])
              · rcases insertSorted_mem h with h2 | h2
                · exact Or.inl (by simp [h2])
                · exact Or.inr h2
          · intro hlen
            rw [hstep]
            exact ihgt (by simp at hlen ⊢; omega)


theorem chain_defineMap_lookup (k r : Nat) (h1 : 1 ≤ r) (h2 : r ≤ k) :
    List.lookup r ((chainGq k).defineMap) = some 0 := by
  show List.lookup r (((List.range k).map (· + 1)).map fun r => (r, 0)) = some 0
  rw [lookup_map_const 0 ((List.range k).map (· + 1)) r, if_pos]
  rw [List.mem_map]
  exact ⟨r - 1, List.mem_range.mpr (by omega), by omega⟩

theorem chain_is_live_out (k r : Nat) (h1 : 1 ≤ r) (h2 : r ≤ k) :
    is_live_out (chainGq k) r 0 = some false := by
  have hus : (List.lookup r (chainGq k).useMap).isSome := by
    show (List.lookup r (chainUm k)).isSome
    exact umfold_lookup_isSome 0 (iter_used_registers (chainBlock k)) [] r
      (Or.inl (chainCode_uses k r h1 h2))
  cases hlu : List.lookup r (chainGq k).useMap with
  | none => rw [hlu] at hus; simp at hus
  | some us =>
      have hall : ∀ x ∈ us, x = 0 := by
        have hmem : (r, us) ∈ chainUm k := lookup_mem hlu
        exact umfold_values 0 (iter_used_registers (chainBlock k)) []
          (by simp) (r, us) hmem
      have hany : (us.any fun u => decide (u ≠ 0)) = false := by
        cases hx : us.any fun u => decide (u ≠ 0) with
        | false => rfl
        | true =>
            rcases List.any_eq_true.mp hx with ⟨x, hxm, hdx⟩
            rw [decide_eq_true_iff] at hdx
            exact absurd (hall x hxm) hdx
      simp only [is_live_out, chain_defineMap_lookup k r h1 h2,
        Option.bind_eq_bind, Option.some_bind, if_true]
      rw [hlu]
      simp only [Option.some_bind, Option.pure_def]
      rw [show (us.any fun u => decide (u ≠ 0)) = false from hany]
      rw [if_pos (show 0 < (chainGq k).n from Nat.one_pos)]

theorem releaseAtExit_all (gq : GraphQuery) (cur : Nat) :
    ∀ (cm : List (Nat × MachineRegister)) (accl : List (Nat × MachineRegister))
      (accp : List MachineRegister),
      (∀ kv ∈ cm, is_live_out gq kv.1 cur = some false) →
      cm.foldlM
        (fun acc kv => do
          let b ← is_live_out gq kv.1 cur
          pure (if b then (acc.1 ++ [kv], acc.2) else (acc.1, acc.2 ++ [kv.2])))
        (accl, accp) = some (accl, accp ++ cm.map fun kv => kv.2) := by
  intro cm
  induction cm with
  | nil =>
      intro accl accp _
      simp
  | cons kv t ih =>
      intro accl accp hall
      have hred : (do
            let b ← is_live_out gq kv.1 cur
            pure (if b then (accl ++ [kv], accp) else (accl, accp ++ [kv.2]))) =
          some (accl, accp ++ [kv.2]) := by
        rw [hall kv (by simp)]
        simp
      rw [List.foldlM_cons, hred]
      show List.foldlM
          (fun (acc : List (Nat × MachineRegister) × List MachineRegister) kv => do
            let b ← is_live_out gq kv.1 cur
            pure (if b then (acc.1 ++ [kv], acc.2) else (acc.1, acc.2 ++ [kv.2])))
          (accl, accp ++ [kv.2]) t =
        some (accl, accp ++ List.map (fun kv => kv.2) (kv :: t))
      rw [ih accl (accp ++ [kv.2]) (fun q hq => hall q (List.mem_cons_of_mem _ hq))]
      simp

theorem releaseAtExit_chain (k : Nat) (cm : List (Nat × MachineRegister))
    (pool : List MachineRegister)
    (hmem : ∀ p ∈ cm, p.1 ∈ (List.range k).map (· + 1)) :
    releaseAtExit (chainGq k) 0 cm pool = some ([], pool ++ cm.map fun kv => kv.2) := by
  unfold releaseAtExit
  refine releaseAtExit_all (chainGq k) 0 cm [] pool ?_
  intro kv hkv
  rcases List.mem_map.mp (hmem kv hkv) with ⟨i, hi, hri⟩
  exact chain_is_live_out k kv.1 (by omega) (by rw [← hri]; have := List.mem_range.mp hi; omega)


theorem build_chain (k fuel : Nat) :
    (k ≤ 10 →
      build_register_map_inner (chainBbm k) (chainGq k) (fuel + 1) 0 []
          availableRegisters [] [] =
        some ([0], ((List.range k).map (· + 1)).zip availableRegisters)) ∧
    (11 ≤ k →
      build_register_map_inner (chainBbm k) (chainGq k) (fuel + 1) 0 []
          availableRegisters [] [] = none) := by
  have hnd : ((List.range k).map (· + 1)).Nodup :=
    List.Nodup.map (fun a b hab => by omega) (List.nodup_range k)
  obtain ⟨hle, hgt⟩ := allocateDefs_spec ((List.range k).map (· + 1)) []
    availableRegisters [] hnd (fun r _ => ⟨rfl, rfl⟩)
  have hlen : ((List.range k).map (· + 1)).length = k := by simp
  have hstart : build_register_map_inner (chainBbm k) (chainGq k) (fuel + 1) 0 []
      availableRegisters [] [] =
      (allocateDefs ((List.range k).map (· + 1)) [] availableRegisters []).bind
        fun st =>
          (releaseAtExit (chainGq k) 0 st.1 st.2.1).bind fun st2 =>
            some ([0], st.2.2) := by
    rw [build_register_map_inner]
    rw [if_neg (by simp)]
    rw [show releaseAtEntry (chainGq k) [] availableRegisters =
      some ([], availableRegisters) from rfl]
    rw [show (chainBbm k).blocks.get? 0 = some (chainBlock k) from rfl]
    simp only [Option.bind_eq_bind, Option.some_bind, List.nil_append]
    rw [chainCode_defs k]
    cases halloc : allocateDefs ((List.range k).map (· + 1)) [] availableRegisters [] with
    | none => simp
    | some st =>
        rcases st with ⟨cm2, pool2, out1⟩
        simp only [Option.some_bind]
        cases hrel : releaseAtExit (chainGq k) 0 cm2 pool2 with
        | none => simp
        | some st2 =>
            rcases st2 with ⟨cm3, pool3⟩
            simp only [Option.some_bind]
            rw [show (chainBlock k).exits = [] from rfl]
            rfl
  constructor
  · intro hk
    obtain ⟨cm', heq, hmem⟩ := hle (by
      rw [hlen, show availableRegisters.length = 10 from rfl]
      exact hk)
    have hm : ∀ p ∈ cm', p.1 ∈ (List.range k).map (· + 1) := by
      intro p hp
      rcases hmem p hp with h | h
      · exact h
      · simp at h
    rw [hstart, heq]
    simp only [Option.bind_eq_bind, Option.some_bind]
    rw [releaseAtExit_chain k cm' (availableRegisters.drop
        ((List.range k).map (· + 1)).length) hm]
    simp only [Option.some_bind, List.nil_append]
  · intro hk
    rw [hstart, hgt (by
      rw [hlen, show availableRegisters.length = 10 from rfl]
      omega)]
    rfl


/-- C5 (amended): register allocation draws from the FIFO pool holding
exactly `[rdx, rbx, r8, r9, r10, r11, r12, r13, r14, r15]`.  On the
straight-line program defining `k` chained simultaneously-live registers,
allocation succeeds for `k ≤ 10`, assigning the `i`-th defined register
the `i`-th pool element (FIFO order), and for `k ≥ 11` it aborts in the
`expect("Ran out of machine registers! ...")` panic (modelled `none`) at
the 11th definition — no error value is returned to the caller. -/
theorem chain_allocation_boundary (k : Nat) :
    (k ≤ 10 → compute_register_map (chainBbm k) =
      some (((List.range k).map (· + 1)).zip availableRegisters)) ∧
    (11 ≤ k → compute_register_map (chainBbm k) = none) := by
  have hb := build_chain k 2
  have h3 : (chainBbm k).blocks.length + 2 = 2 + 1 := rfl
  constructor
  · intro hk
    unfold compute_register_map
    rw [mkGraphQuery_chain k]
    simp only [Option.bind_eq_bind, Option.some_bind]
    rw [h3, hb.1 hk]
    rfl
  · intro hk
    unfold compute_register_map
    rw [mkGraphQuery_chain k]
    simp only [Option.bind_eq_bind, Option.some_bind]
    rw [h3, hb.2 hk]
    rfl

/-- Witness for the amended C5 at `k = 2` (success, FIFO order) and
`k = 12` (panic). -/
theorem chain_allocation_boundary_witness :
    compute_register_map (chainBbm 2) =
      some [(1, MachineRegister.Rdx), (2, MachineRegister.Rbx)] ∧
    compute_register_map (chainBbm 12) = none := by
  constructor
  · rw [(chain_allocation_boundary 2).1 (by norm_num)]
    rfl
  · exact (chain_allocation_boundary 12).2 (by norm_num)

end ShibaJit
